import Mathlib

/-!
Verification development for the PII masking tool (`pii_encrypt_md.py`).

Python strings are modelled as `List Char` (one entry per code point, which is
exactly how Python indexes and slices `str`).  Python slicing `s[:i]` / `s[j:]`
clamps out-of-range indices, which matches `List.take` / `List.drop` on `Nat`
indices.  The external Fernet cipher is a black box behind
`encrypt_text` / `decrypt_text`; it is modelled by a pair of opaque functions
`enc : PyStr -> PyStr` and `dec : PyStr -> Option PyStr` (a raised exception in
`decrypt_text` becomes `none`).  The external presidio analyzer is modelled by
an abstract environment of optionally-available engines.
-/

/-- Model of a Python `str`: the list of its characters. -/
abbrev PyStr := List Char

/-- Python slicing `t[s:e]` for non-negative indices (with Python's clamping). -/
def pySlice (t : PyStr) (s e : Nat) : PyStr := (t.take e).drop s

/-- Character class `[A-Z_]` of the entity-type group in `ENCODED_PATTERN`. -/
def isEtyChar (c : Char) : Bool := ('A' ≤ c && c ≤ 'Z') || c == '_'

/-- Character class `[A-Za-z0-9_\-]` of the token body in `ENCODED_PATTERN`. -/
def isTokChar (c : Char) : Bool :=
  ('A' ≤ c && c ≤ 'Z') || ('a' ≤ c && c ≤ 'z') || ('0' ≤ c && c ≤ '9') || c == '_' || c == '-'

/-- Character class of the optional trailing padding `=*` of the token. -/
def isPadChar (c : Char) : Bool := c == '='

/-- The marker text produced by `apply_encryption_replacements`:
the f-string `safe_token` builds two literal braces, `ENC:`, the entity type,
a colon, the ciphertext and two closing braces. -/
def markerChars (e t : PyStr) : PyStr :=
  '{' :: '{' :: 'E' :: 'N' :: 'C' :: ':' :: (e ++ ':' :: (t ++ ['}', '}']))

/-- Well-formed entity type: nonempty and matching `[A-Z_]+`. -/
def wfEty (e : PyStr) : Bool := !e.isEmpty && e.all isEtyChar

/-- Well-formed token: matching `[A-Za-z0-9_\-]+=*` (nonempty body, then only
padding characters). -/
def wfTok (t : PyStr) : Bool :=
  !(t.takeWhile isTokChar).isEmpty && (t.dropWhile isTokChar).all isPadChar

/-- Regex stage: match `=*\}\}` at the head of the input, returning the padding
run and the remainder after the two closing braces. -/
def parsePad (cs : PyStr) : Option (PyStr × PyStr) :=
  match cs.dropWhile isPadChar with
  | '}' :: '}' :: rest => some (cs.takeWhile isPadChar, rest)
  | _ => none

/-- Regex stage: match `[A-Za-z0-9_\-]+=*\}\}` at the head of the input,
returning the full token (body plus padding, i.e. group 2 of the regex) and
the remainder. -/
def parseTok (cs : PyStr) : Option (PyStr × PyStr) :=
  if (cs.takeWhile isTokChar).isEmpty then none
  else
    match parsePad (cs.dropWhile isTokChar) with
    | some (pad, rest) => some (cs.takeWhile isTokChar ++ pad, rest)
    | none => none

/-- Regex stage: match `[A-Z_]+:<token>\}\}` at the head of the input,
returning the entity type (group 1), the token (group 2) and the remainder. -/
def parseEty (cs : PyStr) : Option (PyStr × PyStr × PyStr) :=
  if (cs.takeWhile isEtyChar).isEmpty then none
  else
    match cs.dropWhile isEtyChar with
    | ':' :: cs2 =>
      match parseTok cs2 with
      | some (t, rest) => some (cs.takeWhile isEtyChar, t, rest)
      | none => none
    | _ => none

/-- Model of `ENCODED_PATTERN` matching at a fixed position: the regex
`\{\{ENC:([A-Z_]+):([A-Za-z0-9_\-]+=*)\}\}` matches a prefix of `cs` iff
`parseMarkerAt cs` succeeds; it returns the two groups and the remainder of
the string after the match.  All subpatterns are deterministic (each repeated
class is followed by a delimiter outside the class), so greedy maximal-munch
parsing is equivalent to the backtracking regex. -/
def parseMarkerAt : PyStr → Option (PyStr × PyStr × PyStr)
  | '{' :: '{' :: 'E' :: 'N' :: 'C' :: ':' :: cs => parseEty cs
  | _ => none

theorem all_takeWhile {α : Type} (p : α → Bool) : ∀ l : List α, (l.takeWhile p).all p = true := by
  intro l
  induction l with
  | nil => rfl
  | cons c cs ih =>
    rw [List.takeWhile_cons]
    by_cases h : p c = true
    · simp [h, ih]
    · simp [h]

theorem takeWhile_eq_self_of_all {α : Type} {p : α → Bool} {l : List α} (h : l.all p = true) :
    l.takeWhile p = l := by
  induction l with
  | nil => rfl
  | cons c cs ih =>
    simp only [List.all_cons, Bool.and_eq_true] at h
    rw [List.takeWhile_cons]
    simp [h.1, ih h.2]

theorem dropWhile_eq_nil_of_all {α : Type} {p : α → Bool} {l : List α} (h : l.all p = true) :
    l.dropWhile p = [] := by
  induction l with
  | nil => rfl
  | cons c cs ih =>
    simp only [List.all_cons, Bool.and_eq_true] at h
    rw [List.dropWhile_cons]
    simp [h.1, ih h.2]

theorem parsePad_sound {cs pad rest : PyStr} (h : parsePad cs = some (pad, rest)) :
    cs = pad ++ '}' :: '}' :: rest ∧ pad.all isPadChar = true := by
  unfold parsePad at h
  split at h
  case _ heq =>
    obtain ⟨rfl, rfl⟩ : cs.takeWhile isPadChar = pad ∧ _ = rest := by
      injection h with h2
      injection h2 with h3 h4
      exact ⟨h3, h4⟩
    refine ⟨?_, all_takeWhile _ _⟩
    conv_lhs => rw [← List.takeWhile_append_dropWhile isPadChar cs]
    rw [heq]
  case _ => exact absurd h (by simp)

theorem parsePad_complete {pad : PyStr} (hp : pad.all isPadChar = true) (rest : PyStr) :
    parsePad (pad ++ '}' :: '}' :: rest) = some (pad, rest) := by
  unfold parsePad
  have hd : (pad ++ '}' :: '}' :: rest).dropWhile isPadChar = '}' :: '}' :: rest := by
    rw [List.dropWhile_append]
    simp [dropWhile_eq_nil_of_all hp, List.dropWhile_cons, isPadChar]
  have ht : (pad ++ '}' :: '}' :: rest).takeWhile isPadChar = pad := by
    rw [List.takeWhile_append]
    simp [takeWhile_eq_self_of_all hp, List.takeWhile_cons, isPadChar]
  rw [hd, ht]
  rfl

theorem parseTok_sound {cs t rest : PyStr} (h : parseTok cs = some (t, rest)) :
    cs = t ++ '}' :: '}' :: rest ∧ wfTok t = true := by
  unfold parseTok at h
  split at h
  case _ => exact absurd h (by simp)
  case _ hne =>
    revert h
    split
    case _ pad rest' hpad =>
      intro h
      obtain ⟨rfl, rfl⟩ : cs.takeWhile isTokChar ++ pad = t ∧ rest' = rest := by
        injection h with h2
        injection h2 with h3 h4
        exact ⟨h3, h4⟩
      obtain ⟨hsplit, hpadall⟩ := parsePad_sound hpad
      have hpadnot : ∀ q ∈ pad, isTokChar q = false := by
        intro q hq
        have hq2 : isPadChar q = true := List.all_eq_true.mp hpadall q hq
        have : q = '=' := by
          unfold isPadChar at hq2
          simpa using hq2
        subst this
        decide
      have h1 : (cs.takeWhile isTokChar ++ pad).takeWhile isTokChar = cs.takeWhile isTokChar := by
        rw [List.takeWhile_append]
        rw [takeWhile_eq_self_of_all (all_takeWhile isTokChar cs)]
        simp only [if_pos rfl]
        cases hpc : pad with
        | nil => simp
        | cons p ps =>
          have := hpadnot p (by rw [hpc]; exact List.mem_cons_self _ _)
          simp [List.takeWhile_cons, this]
      have h2 : (cs.takeWhile isTokChar ++ pad).dropWhile isTokChar = pad := by
        rw [List.dropWhile_append]
        rw [dropWhile_eq_nil_of_all (all_takeWhile isTokChar cs)]
        simp only [List.isEmpty_nil, if_pos rfl]
        cases hpc : pad with
        | nil => rfl
        | cons p ps =>
          have := hpadnot p (by rw [hpc]; exact List.mem_cons_self _ _)
          simp [List.dropWhile_cons, this]
      constructor
      · conv_lhs => rw [← List.takeWhile_append_dropWhile isTokChar cs]
        rw [hsplit, List.append_assoc]
      · unfold wfTok
        rw [h1, h2]
        simp only [Bool.and_eq_true, Bool.not_eq_eq_eq_not, Bool.not_true]
        constructor
        · simpa using hne
        · exact hpadall
    case _ => intro h; exact absurd h (by simp)

theorem parseTok_complete {t : PyStr} (ht : wfTok t = true) (rest : PyStr) :
    parseTok (t ++ '}' :: '}' :: rest) = some (t, rest) := by
  unfold wfTok at ht
  simp only [Bool.and_eq_true, Bool.not_eq_eq_eq_not, Bool.not_true, List.isEmpty_eq_false] at ht
  obtain ⟨hbody, hpad⟩ := ht
  have hsplit : t = t.takeWhile isTokChar ++ t.dropWhile isTokChar :=
    (List.takeWhile_append_dropWhile isTokChar t).symm
  have hballl : ∀ q ∈ t.takeWhile isTokChar, isTokChar q = true := by
    simpa using List.all_eq_true.mp (all_takeWhile isTokChar t)
  have hpadnot : ∀ q ∈ t.dropWhile isTokChar, isTokChar q = false := by
    intro q hq
    have hq2 : isPadChar q = true := List.all_eq_true.mp hpad q hq
    have : q = '=' := by
      unfold isPadChar at hq2
      simpa using hq2
    subst this
    decide
  have htw : (t ++ '}' :: '}' :: rest).takeWhile isTokChar = t.takeWhile isTokChar := by
    conv_lhs => rw [hsplit, List.append_assoc]
    rw [List.takeWhile_append_of_pos hballl]
    cases hpc : t.dropWhile isTokChar with
    | nil =>
      simp [List.takeWhile_cons, show isTokChar '}' = false from by decide]
    | cons p ps =>
      have := hpadnot p (by rw [hpc]; exact List.mem_cons_self _ _)
      simp [List.takeWhile_cons, this]
  have hdw : (t ++ '}' :: '}' :: rest).dropWhile isTokChar =
      t.dropWhile isTokChar ++ '}' :: '}' :: rest := by
    conv_lhs => rw [hsplit, List.append_assoc]
    rw [List.dropWhile_append_of_pos hballl]
    cases hpc : t.dropWhile isTokChar with
    | nil =>
      simp [List.dropWhile_cons, show isTokChar '}' = false from by decide]
    | cons p ps =>
      have := hpadnot p (by rw [hpc]; exact List.mem_cons_self _ _)
      simp [List.dropWhile_cons, this]
  unfold parseTok
  rw [htw, hdw]
  rw [parsePad_complete hpad rest]
  simp only [List.isEmpty_eq_true, if_neg hbody]
  rw [← hsplit]

theorem parseEty_sound {cs e t rest : PyStr} (h : parseEty cs = some (e, t, rest)) :
    cs = e ++ ':' :: (t ++ '}' :: '}' :: rest) ∧ wfEty e = true ∧ wfTok t = true := by
  unfold parseEty at h
  split at h
  case _ => exact absurd h (by simp)
  case _ hne =>
    revert h
    split
    case _ cs2 heq2 =>
      split
      case _ t' rest' htok =>
        intro h
        obtain ⟨rfl, rfl, rfl⟩ : cs.takeWhile isEtyChar = e ∧ t' = t ∧ rest' = rest := by
          injection h with h2
          injection h2 with h3 h4
          injection h4 with h5 h6
          exact ⟨h3, h5, h6⟩
        obtain ⟨hsplit, hwt⟩ := parseTok_sound htok
        refine ⟨?_, ?_, hwt⟩
        · conv_lhs => rw [← List.takeWhile_append_dropWhile isEtyChar cs]
          rw [heq2, hsplit]
        · unfold wfEty
          simp only [Bool.and_eq_true, Bool.not_eq_eq_eq_not, Bool.not_true]
          constructor
          · simpa using hne
          · exact all_takeWhile _ _
      case _ => intro h; exact absurd h (by simp)
    case _ => intro h; exact absurd h (by simp)

theorem parseEty_complete {e t : PyStr} (he : wfEty e = true) (ht : wfTok t = true)
    (rest : PyStr) :
    parseEty (e ++ ':' :: (t ++ '}' :: '}' :: rest)) = some (e, t, rest) := by
  unfold wfEty at he
  simp only [Bool.and_eq_true, Bool.not_eq_eq_eq_not, Bool.not_true, List.isEmpty_eq_false] at he
  obtain ⟨hne, hall⟩ := he
  have htw : (e ++ ':' :: (t ++ '}' :: '}' :: rest)).takeWhile isEtyChar = e := by
    rw [List.takeWhile_append_of_pos (by simpa using List.all_eq_true.mp hall)]
    simp [List.takeWhile_cons, show isEtyChar ':' = false from by decide]
  have hdw : (e ++ ':' :: (t ++ '}' :: '}' :: rest)).dropWhile isEtyChar =
      ':' :: (t ++ '}' :: '}' :: rest) := by
    rw [List.dropWhile_append_of_pos (by simpa using List.all_eq_true.mp hall)]
    simp [List.dropWhile_cons, show isEtyChar ':' = false from by decide]
  simp only [parseEty, htw, hdw, parseTok_complete ht rest]
  simp [hne]

theorem parseMarkerAt_sound {cs e t rest : PyStr}
    (h : parseMarkerAt cs = some (e, t, rest)) :
    cs = markerChars e t ++ rest ∧ wfEty e = true ∧ wfTok t = true := by
  unfold parseMarkerAt at h
  split at h
  case _ cs' =>
    obtain ⟨hsplit, he, ht⟩ := parseEty_sound h
    refine ⟨?_, he, ht⟩
    unfold markerChars
    rw [hsplit]
    simp
  case _ => exact absurd h (by simp)

theorem parseMarkerAt_complete {e t : PyStr} (he : wfEty e = true) (ht : wfTok t = true)
    (rest : PyStr) :
    parseMarkerAt (markerChars e t ++ rest) = some (e, t, rest) := by
  unfold markerChars
  have hshape : ('{' :: '{' :: 'E' :: 'N' :: 'C' :: ':' :: (e ++ ':' :: (t ++ ['}', '}']))) ++ rest =
      '{' :: '{' :: 'E' :: 'N' :: 'C' :: ':' :: (e ++ ':' :: (t ++ '}' :: '}' :: rest)) := by
    simp
  rw [hshape]
  unfold parseMarkerAt
  exact parseEty_complete he ht rest

theorem wfTok_mem_class {t : PyStr} (ht : wfTok t = true) :
    ∀ c ∈ t, isTokChar c = true ∨ isPadChar c = true := by
  intro c hc
  unfold wfTok at ht
  simp only [Bool.and_eq_true] at ht
  rw [← List.takeWhile_append_dropWhile isTokChar t] at hc
  rcases List.mem_append.mp hc with h | h
  · exact Or.inl (List.all_eq_true.mp (all_takeWhile _ _) c h)
  · exact Or.inr (List.all_eq_true.mp ht.2 c h)

theorem brace_not_in_body {e t : PyStr} (he : wfEty e = true) (ht : wfTok t = true) :
    '{' ∉ ('E' :: 'N' :: 'C' :: ':' :: (e ++ ':' :: (t ++ ['}', '}']))) := by
  have hety : '{' ∉ e := by
    intro h
    unfold wfEty at he
    simp only [Bool.and_eq_true] at he
    exact absurd (List.all_eq_true.mp he.2 _ h) (by decide)
  have htok : '{' ∉ t := by
    intro h
    rcases wfTok_mem_class ht _ h with h2 | h2
    · exact absurd h2 (by decide)
    · exact absurd h2 (by decide)
  intro hmem
  rcases List.mem_cons.mp hmem with h | hmem
  · exact absurd h (by decide)
  rcases List.mem_cons.mp hmem with h | hmem
  · exact absurd h (by decide)
  rcases List.mem_cons.mp hmem with h | hmem
  · exact absurd h (by decide)
  rcases List.mem_cons.mp hmem with h | hmem
  · exact absurd h (by decide)
  rcases List.mem_append.mp hmem with h | hmem
  · exact hety h
  rcases List.mem_cons.mp hmem with h | hmem
  · exact absurd h (by decide)
  rcases List.mem_append.mp hmem with h | hmem
  · exact htok h
  rcases List.mem_cons.mp hmem with h | hmem
  · exact absurd h (by decide)
  rcases List.mem_cons.mp hmem with h | hmem
  · exact absurd h (by decide)
  exact absurd hmem (by simp)

/-- Boundary lemma: a regex match that starts strictly inside a plain segment
cannot run across the opening braces of a following marker; it must be
contained in the segment. -/
theorem parseMarkerAt_cross {xs ys e t rest : PyStr} (hxs : xs ≠ [])
    (h : parseMarkerAt (xs ++ '{' :: '{' :: ys) = some (e, t, rest)) :
    ∃ rest0, parseMarkerAt xs = some (e, t, rest0) ∧ rest = rest0 ++ '{' :: '{' :: ys := by
  obtain ⟨hs, he, ht⟩ := parseMarkerAt_sound h
  unfold markerChars at hs
  cases xs with
  | nil => exact absurd rfl hxs
  | cons c1 xs1 =>
  cases xs1 with
  | nil =>
    simp only [List.cons_append, List.nil_append, List.cons.injEq] at hs
    exact absurd hs.2.2.1 (by decide)
  | cons c2 xs2 =>
    simp only [List.cons_append, List.cons.injEq] at hs
    obtain ⟨rfl, rfl, hs2⟩ := hs
    have hsplit : xs2 ++ '{' :: '{' :: ys =
        ('E' :: 'N' :: 'C' :: ':' :: (e ++ ':' :: (t ++ ['}', '}']))) ++ rest := by
      simpa using hs2
    rcases List.append_eq_append_iff.mp hsplit with ⟨a, ha1, ha2⟩ | ⟨c, hc1, hc2⟩
    · cases a with
      | nil =>
        rw [List.append_nil] at ha1
        refine ⟨[], ?_, by simpa using ha2.symm⟩
        have : ('{' : Char) :: '{' :: xs2 = markerChars e t ++ [] := by
          unfold markerChars
          rw [ha1]
          simp
        rw [this]
        exact parseMarkerAt_complete he ht []
      | cons x a' =>
        exfalso
        have hx : '{' = x := by
          simpa using congrArg (fun l => l.head?) ha2
        rw [← hx] at ha1
        exact brace_not_in_body he ht (by rw [ha1]; exact List.mem_append_right _ (List.mem_cons_self _ _))
    · refine ⟨c, ?_, hc2⟩
      have : ('{' : Char) :: '{' :: xs2 = markerChars e t ++ c := by
        unfold markerChars
        rw [hc1]
        simp
      rw [this]
      exact parseMarkerAt_complete he ht c

/-- Model of "the text contains no occurrence of `ENCODED_PATTERN`": the regex
fails to match at every start position. -/
def markerFree : PyStr → Bool
  | [] => true
  | c :: cs => (parseMarkerAt (c :: cs)).isNone && markerFree cs

theorem markerFree_iff {cs : PyStr} :
    markerFree cs = true ↔ ∀ i, parseMarkerAt (cs.drop i) = none := by
  induction cs with
  | nil =>
    simp only [markerFree, List.drop_nil, true_iff]
    intro i
    rfl
  | cons c cs ih =>
    simp only [markerFree, Bool.and_eq_true, Option.isNone_iff_eq_none, ih]
    constructor
    · rintro ⟨h0, hrest⟩ i
      cases i with
      | zero => exact h0
      | succ j => exact hrest j
    · intro h
      exact ⟨h 0, fun j => h (j + 1)⟩

theorem parseMarkerAt_extend {cs e t rest : PyStr} (ys : PyStr)
    (h : parseMarkerAt cs = some (e, t, rest)) :
    parseMarkerAt (cs ++ ys) = some (e, t, rest ++ ys) := by
  obtain ⟨hs, he, ht⟩ := parseMarkerAt_sound h
  rw [hs, List.append_assoc]
  exact parseMarkerAt_complete he ht _

theorem markerFree_take {t : PyStr} (h : markerFree t = true) (k : Nat) :
    markerFree (t.take k) = true := by
  rw [markerFree_iff]
  intro i
  cases hp : parseMarkerAt ((t.take k).drop i) with
  | none => rfl
  | some v =>
    exfalso
    obtain ⟨e, tok, rest⟩ := v
    have hne : (t.take k).drop i ≠ [] := by
      intro hnil
      rw [hnil] at hp
      exact absurd hp (by simp [parseMarkerAt])
    have hik : i < (t.take k).length := by
      by_contra hge
      exact hne (List.drop_eq_nil_of_le (Nat.le_of_not_lt hge))
    have hsplit : t.drop i = (t.take k).drop i ++ t.drop k := by
      conv_lhs => rw [← List.take_append_drop k t]
      rw [List.drop_append_of_le_length (Nat.le_of_lt hik)]
    have := parseMarkerAt_extend (t.drop k) hp
    rw [← hsplit] at this
    exact absurd this (by simp [markerFree_iff.mp h i])

theorem markerFree_drop {t : PyStr} (h : markerFree t = true) (k : Nat) :
    markerFree (t.drop k) = true := by
  rw [markerFree_iff]
  intro i
  rw [List.drop_drop]
  exact markerFree_iff.mp h (k + i)

theorem markerChars_length_pos (e t : PyStr) : 0 < (markerChars e t).length := by
  unfold markerChars
  simp

/-- Model of `ENCODED_PATTERN.sub(repl, md_text)`: scan left to right; at each
position, if the regex matches, emit `repl` applied to the two groups and
continue after the match, otherwise copy one character and move on. -/
def substMarkers (f : PyStr → PyStr → PyStr) : PyStr → PyStr
  | [] => []
  | c :: cs =>
    match h : parseMarkerAt (c :: cs) with
    | some (e, tok, rest) => f e tok ++ substMarkers f rest
    | none => c :: substMarkers f cs
termination_by cs => cs.length
decreasing_by
· have hs := (parseMarkerAt_sound h).1
  have hlen : (c :: cs).length = (markerChars e tok).length + rest.length := by
    rw [hs, List.length_append]
  have hm := markerChars_length_pos e tok
  simp only [List.length_cons] at hlen ⊢
  omega
· simp

theorem substMarkers_nil (f : PyStr → PyStr → PyStr) : substMarkers f [] = [] := by
  simp [substMarkers]

theorem substMarkers_cons_some {f : PyStr → PyStr → PyStr} {c : Char} {cs e tok rest : PyStr}
    (h : parseMarkerAt (c :: cs) = some (e, tok, rest)) :
    substMarkers f (c :: cs) = f e tok ++ substMarkers f rest := by
  rw [substMarkers]
  split
  case _ e' tok' rest' heq =>
    rw [h] at heq
    injection heq with h2
    injection h2 with h3 h4
    injection h4 with h5 h6
    rw [h3, h5, h6]
  case _ heq =>
    rw [h] at heq
    exact absurd heq (by simp)

theorem substMarkers_cons_none {f : PyStr → PyStr → PyStr} {c : Char} {cs : PyStr}
    (h : parseMarkerAt (c :: cs) = none) :
    substMarkers f (c :: cs) = c :: substMarkers f cs := by
  rw [substMarkers]
  split
  case _ e' tok' rest' heq =>
    rw [h] at heq
    exact absurd heq (by simp)
  case _ => rfl

theorem substMarkers_free {f : PyStr → PyStr → PyStr} {seg : PyStr}
    (h : markerFree seg = true) : substMarkers f seg = seg := by
  induction seg with
  | nil => exact substMarkers_nil f
  | cons c cs ih =>
    simp only [markerFree, Bool.and_eq_true, Option.isNone_iff_eq_none] at h
    rw [substMarkers_cons_none h.1, ih h.2]

theorem substMarkers_append_free {f : PyStr → PyStr → PyStr} {seg r : PyStr}
    (hfree : markerFree seg = true) :
    substMarkers f (seg ++ '{' :: '{' :: r) = seg ++ substMarkers f ('{' :: '{' :: r) := by
  induction seg with
  | nil => simp
  | cons c cs ih =>
    simp only [markerFree, Bool.and_eq_true, Option.isNone_iff_eq_none] at hfree
    have hnone : parseMarkerAt ((c :: cs) ++ '{' :: '{' :: r) = none := by
      cases hp : parseMarkerAt ((c :: cs) ++ '{' :: '{' :: r) with
      | none => rfl
      | some v =>
        exfalso
        obtain ⟨e, tok, rest⟩ := v
        obtain ⟨rest0, hxs, -⟩ := parseMarkerAt_cross (by simp) hp
        rw [hfree.1] at hxs
        exact absurd hxs (by simp)
    rw [List.cons_append] at hnone ⊢
    rw [substMarkers_cons_none hnone, ih hfree.2]
    simp

theorem substMarkers_marker {f : PyStr → PyStr → PyStr} {e t : PyStr} (rest : PyStr)
    (he : wfEty e = true) (ht : wfTok t = true) :
    substMarkers f (markerChars e t ++ rest) = f e t ++ substMarkers f rest := by
  have hp := parseMarkerAt_complete he ht rest
  have hshape : markerChars e t ++ rest =
      '{' :: ('{' :: 'E' :: 'N' :: 'C' :: ':' :: (e ++ ':' :: (t ++ ['}', '}'])) ++ rest) := by
    unfold markerChars
    simp
  rw [hshape] at hp ⊢
  exact substMarkers_cons_some hp

/-- One regex match of `ENCODED_PATTERN` inside a document: the two groups and
the half-open span `[start, stop)` of the whole match (Python `m.start()` and
`m.end()`). -/
structure MarkerHit where
  ety : PyStr
  tok : PyStr
  start : Nat
  stop : Nat
deriving DecidableEq, Repr

/-- Model of iterating `ENCODED_PATTERN` over a document from position `pos`
(as `finditer`/`findall` do): leftmost, non-overlapping matches in
left-to-right order. -/
def scanMarkersAux : PyStr → Nat → List MarkerHit
  | [], _ => []
  | c :: cs, pos =>
    match h : parseMarkerAt (c :: cs) with
    | some (e, tok, rest) =>
      ⟨e, tok, pos, pos + ((c :: cs).length - rest.length)⟩ ::
        scanMarkersAux rest (pos + ((c :: cs).length - rest.length))
    | none => scanMarkersAux cs (pos + 1)
termination_by cs _ => cs.length
decreasing_by
· have hs := (parseMarkerAt_sound h).1
  have hlen : (c :: cs).length = (markerChars e tok).length + rest.length := by
    rw [hs, List.length_append]
  have hm := markerChars_length_pos e tok
  simp only [List.length_cons] at hlen ⊢
  omega
· simp

/-- All matches of `ENCODED_PATTERN` in a document, in order. -/
def scanMarkers (cs : PyStr) : List MarkerHit := scanMarkersAux cs 0

/-- The count `len(ENCODED_PATTERN.findall(md_text))` that the decrypt
subcommand computes before decryption and logs as `markers_decrypted`. -/
def encrypted_marker_count (cs : PyStr) : Nat := (scanMarkers cs).length

theorem scanMarkersAux_nil (pos : Nat) : scanMarkersAux [] pos = [] := by
  simp [scanMarkersAux]

theorem scanMarkersAux_cons_none {c : Char} {cs : PyStr} {pos : Nat}
    (h : parseMarkerAt (c :: cs) = none) :
    scanMarkersAux (c :: cs) pos = scanMarkersAux cs (pos + 1) := by
  rw [scanMarkersAux]
  split
  case _ e' tok' rest' heq =>
    rw [h] at heq
    exact absurd heq (by simp)
  case _ => rfl

theorem scanMarkersAux_cons_some {c : Char} {cs e tok rest : PyStr} {pos : Nat}
    (h : parseMarkerAt (c :: cs) = some (e, tok, rest)) :
    scanMarkersAux (c :: cs) pos =
      ⟨e, tok, pos, pos + ((c :: cs).length - rest.length)⟩ ::
        scanMarkersAux rest (pos + ((c :: cs).length - rest.length)) := by
  rw [scanMarkersAux]
  split
  case _ e' tok' rest' heq =>
    rw [h] at heq
    injection heq with h2
    injection h2 with h3 h4
    injection h4 with h5 h6
    rw [h3, h5, h6]
  case _ heq =>
    rw [h] at heq
    exact absurd heq (by simp)

theorem scanMarkersAux_free {seg : PyStr} (h : markerFree seg = true) (pos : Nat) :
    scanMarkersAux seg pos = [] := by
  induction seg generalizing pos with
  | nil => exact scanMarkersAux_nil pos
  | cons c cs ih =>
    simp only [markerFree, Bool.and_eq_true, Option.isNone_iff_eq_none] at h
    rw [scanMarkersAux_cons_none h.1]
    exact ih h.2 (pos + 1)

theorem scanMarkersAux_append_free {seg r : PyStr} (hfree : markerFree seg = true) (pos : Nat) :
    scanMarkersAux (seg ++ '{' :: '{' :: r) pos =
      scanMarkersAux ('{' :: '{' :: r) (pos + seg.length) := by
  induction seg generalizing pos with
  | nil => simp
  | cons c cs ih =>
    simp only [markerFree, Bool.and_eq_true, Option.isNone_iff_eq_none] at hfree
    have hnone : parseMarkerAt ((c :: cs) ++ '{' :: '{' :: r) = none := by
      cases hp : parseMarkerAt ((c :: cs) ++ '{' :: '{' :: r) with
      | none => rfl
      | some v =>
        exfalso
        obtain ⟨e, tok, rest⟩ := v
        obtain ⟨rest0, hxs, -⟩ := parseMarkerAt_cross (by simp) hp
        rw [hfree.1] at hxs
        exact absurd hxs (by simp)
    rw [List.cons_append] at hnone ⊢
    rw [scanMarkersAux_cons_none hnone, ih hfree.2]
    simp only [List.length_cons]
    congr 1
    omega

theorem scanMarkersAux_marker {e t : PyStr} (rest : PyStr) (pos : Nat)
    (he : wfEty e = true) (ht : wfTok t = true) :
    scanMarkersAux (markerChars e t ++ rest) pos =
      ⟨e, t, pos, pos + (markerChars e t).length⟩ ::
        scanMarkersAux rest (pos + (markerChars e t).length) := by
  have hp := parseMarkerAt_complete he ht rest
  have hshape : markerChars e t ++ rest =
      '{' :: ('{' :: 'E' :: 'N' :: 'C' :: ':' :: (e ++ ':' :: (t ++ ['}', '}'])) ++ rest) := by
    unfold markerChars
    simp
  rw [hshape] at hp
  have hlen : ((markerChars e t ++ rest).length - rest.length) = (markerChars e t).length := by
    rw [List.length_append]
    omega
  rw [hshape, scanMarkersAux_cons_some hp]
  rw [← hshape, hlen]

/-- The `PiiMatch` dataclass.  `end` is a reserved word in Lean, so the field
is called `endPos`; all other field names follow the source.  `score` is the
float confidence; no claim depends on its value. -/
structure PiiMatch where
  start : Nat
  endPos : Nat
  entity_type : PyStr
  score : Float
  text : PyStr
  line : Nat
  column : Nat

/-- Insert a match into a list that is already sorted by descending `start`,
keeping it before any element of equal key (stability). -/
def insertDesc (m : PiiMatch) : List PiiMatch → List PiiMatch
  | [] => [m]
  | x :: xs => if m.start < x.start then x :: insertDesc m xs else m :: x :: xs

/-- Model of `sorted(matches, key=lambda m: m.start, reverse=True)`: Python's
`sorted` is specified as a stable sort, and with `reverse=True` it orders by
strictly greater key while keeping equal-key elements in their original order.
A stable insertion sort computes exactly that list. -/
def sortDesc (ms : List PiiMatch) : List PiiMatch := ms.foldr insertDesc []

/-- The replacement text inserted by `apply_encryption_replacements` for one
match: the `safe_token` f-string around `encrypt_text(m.text, key)`, the
cipher being abstracted by `enc`. -/
def encSub (enc : PyStr → PyStr) (m : PiiMatch) : PyStr :=
  markerChars m.entity_type (enc m.text)

/-- The replacement text inserted by `apply_anonymization_replacements` for one
match: `"[" + entity_type + "_" + str(abs(hash(m.text)) % 10000) + "]"`.
Python's builtin `hash` on `str` is salted per process (`PYTHONHASHSEED`), so
`abs(hash(.))` is modelled as an opaque parameter `h : PyStr -> Nat` standing
for the hash function of one particular run. -/
def anonSub (h : PyStr → Nat) (m : PiiMatch) : PyStr :=
  '[' :: (m.entity_type ++ '_' :: ((Nat.repr (h m.text % 10000)).data ++ [']']))

/-- One iteration of the replacement loop:
`buf = buf[: m.start] + substitution + buf[m.end :]`. -/
def spliceOne (sub : PiiMatch → PyStr) (buf : PyStr) (m : PiiMatch) : PyStr :=
  buf.take m.start ++ sub m ++ buf.drop m.endPos

/-- The sort-then-splice loop shared verbatim by `apply_encryption_replacements`
and `apply_anonymization_replacements` (they differ only in the substitution
text computed per match). -/
def applyReplacements (sub : PiiMatch → PyStr) (md_text : PyStr)
    (ms : List PiiMatch) : PyStr :=
  (sortDesc ms).foldl (spliceOne sub) md_text

/-- Model of `apply_encryption_replacements(md_text, matches, key)`, with
`enc s = encrypt_text(s, key)` for the fixed key. -/
def apply_encryption_replacements (enc : PyStr → PyStr) (md_text : PyStr)
    (ms : List PiiMatch) : PyStr :=
  applyReplacements (encSub enc) md_text ms

/-- Model of `apply_anonymization_replacements(md_text, matches)`, with `h`
the per-run string hash (see `anonSub`). -/
def apply_anonymization_replacements (h : PyStr → Nat) (md_text : PyStr)
    (ms : List PiiMatch) : PyStr :=
  applyReplacements (anonSub h) md_text ms

/-- Model of `decrypt_markers(md_text, key)`, with
`dec t = decrypt_text(t, key)` returning `none` when `decrypt_text` raises:
the `_replace` callback substitutes the plaintext on success and the whole
matched text `match.group(0)` (which `parseMarkerAt_sound` shows is exactly
`markerChars e tok`) on failure. -/
def decrypt_markers (dec : PyStr → Option PyStr) (md_text : PyStr) : PyStr :=
  substMarkers (fun e tok =>
    match dec tok with
    | some plain => plain
    | none => markerChars e tok) md_text

/-- A match is valid for a document when its captured `text` field equals the
live substring `md_text[start:end]` and the span lies inside the document
(the `Match` invariant of the data model). -/
def validMatch (t : PyStr) (m : PiiMatch) : Prop :=
  m.start ≤ m.endPos ∧ m.endPos ≤ t.length ∧ m.text = pySlice t m.start m.endPos

instance (t : PyStr) (m : PiiMatch) : Decidable (validMatch t m) := by
  unfold validMatch
  exact inferInstance

/-- Two matches have non-intersecting half-open intervals
(`[start, end) ∩ [start', end') = ∅`). -/
def noOverlap (a b : PiiMatch) : Prop :=
  ¬ (max a.start b.start < min a.endPos b.endPos)

instance (a b : PiiMatch) : Decidable (noOverlap a b) := by
  unfold noOverlap
  exact inferInstance

theorem noOverlap_symm : ∀ {a b : PiiMatch}, noOverlap a b → noOverlap b a := by
  intro a b h
  unfold noOverlap at h ⊢
  omega

theorem mem_insertDesc {m x : PiiMatch} {l : List PiiMatch} :
    x ∈ insertDesc m l ↔ x = m ∨ x ∈ l := by
  induction l with
  | nil => simp [insertDesc]
  | cons y ys ih =>
    unfold insertDesc
    by_cases h : m.start < y.start
    · simp only [if_pos h, List.mem_cons, ih]
      tauto
    · simp only [if_neg h, List.mem_cons]

theorem insertDesc_perm (m : PiiMatch) (l : List PiiMatch) :
    List.Perm (insertDesc m l) (m :: l) := by
  induction l with
  | nil => exact List.Perm.refl _
  | cons y ys ih =>
    unfold insertDesc
    by_cases h : m.start < y.start
    · rw [if_pos h]
      exact (List.Perm.cons y ih).trans (List.Perm.swap m y ys)
    · rw [if_neg h]

theorem sortDesc_perm (ms : List PiiMatch) : List.Perm (sortDesc ms) ms := by
  induction ms with
  | nil => exact List.Perm.refl _
  | cons m rest ih =>
    unfold sortDesc
    simp only [List.foldr_cons]
    exact (insertDesc_perm m (sortDesc rest)).trans (List.Perm.cons m ih)

theorem insertDesc_sorted {m : PiiMatch} {l : List PiiMatch}
    (hl : l.Pairwise (fun a b => b.start ≤ a.start)) :
    (insertDesc m l).Pairwise (fun a b => b.start ≤ a.start) := by
  induction l with
  | nil => simp [insertDesc]
  | cons y ys ih =>
    rw [List.pairwise_cons] at hl
    unfold insertDesc
    by_cases h : m.start < y.start
    · rw [if_pos h]
      rw [List.pairwise_cons]
      constructor
      · intro z hz
        rcases mem_insertDesc.mp hz with rfl | hz2
        · omega
        · exact hl.1 z hz2
      · exact ih hl.2
    · rw [if_neg h]
      rw [List.pairwise_cons]
      constructor
      · intro z hz
        rcases List.mem_cons.mp hz with rfl | hz2
        · omega
        · have := hl.1 z hz2
          omega
      · rw [List.pairwise_cons]
        exact hl

theorem sortDesc_sorted (ms : List PiiMatch) :
    (sortDesc ms).Pairwise (fun a b => b.start ≤ a.start) := by
  induction ms with
  | nil => simp [sortDesc]
  | cons m rest ih =>
    unfold sortDesc
    simp only [List.foldr_cons]
    exact insertDesc_sorted ih

/-- The `_replace` callback of `decrypt_markers`: plaintext on successful
decryption, the whole matched marker text on failure. -/
def decFun (dec : PyStr → Option PyStr) (e tok : PyStr) : PyStr :=
  match dec tok with
  | some plain => plain
  | none => markerChars e tok

theorem decrypt_markers_eq (dec : PyStr → Option PyStr) (md_text : PyStr) :
    decrypt_markers dec md_text = substMarkers (decFun dec) md_text := rfl

theorem ends_le_start {m : PiiMatch} {l : List PiiMatch}
    (hd : (m :: l).Pairwise noOverlap)
    (hs : (m :: l).Pairwise (fun a b => b.start ≤ a.start))
    (hm : m.start < m.endPos) :
    ∀ x ∈ l, x.endPos ≤ m.start := by
  intro x hx
  have h1 : noOverlap m x := (List.pairwise_cons.mp hd).1 x hx
  have h2 : x.start ≤ m.start := (List.pairwise_cons.mp hs).1 x hx
  unfold noOverlap at h1
  omega

theorem length_spliceOne_ge {sub : PiiMatch → PyStr} {A : PyStr} {m : PiiMatch}
    (h : m.start ≤ A.length) : m.start ≤ (spliceOne sub A m).length := by
  unfold spliceOne
  simp only [List.length_append, List.length_take, List.length_drop]
  omega

/-- Locality of the splice loop: matches that live entirely below `bound`
inside the prefix `A` never touch an appended suffix `B`. -/
theorem foldl_splice_append {sub : PiiMatch → PyStr} :
    ∀ (l : List PiiMatch) (A B : PyStr) (bound : Nat),
      l.Pairwise noOverlap → l.Pairwise (fun a b => b.start ≤ a.start) →
      (∀ x ∈ l, x.start < x.endPos ∧ x.endPos ≤ bound) → bound ≤ A.length →
      l.foldl (spliceOne sub) (A ++ B) = l.foldl (spliceOne sub) A ++ B := by
  intro l
  induction l with
  | nil => intro A B bound _ _ _ _; rfl
  | cons m rest ih =>
    intro A B bound hd hs hmem hbound
    obtain ⟨hlt, hend⟩ := hmem m (List.mem_cons_self _ _)
    have hsA : m.start ≤ A.length := by omega
    have heA : m.endPos ≤ A.length := by omega
    have hsplice : spliceOne sub (A ++ B) m = spliceOne sub A m ++ B := by
      unfold spliceOne
      rw [List.take_append_of_le_length hsA, List.drop_append_of_le_length heA]
      simp [List.append_assoc]
    simp only [List.foldl_cons, hsplice]
    exact ih (spliceOne sub A m) B m.start (List.Pairwise.sublist (by simp) hd)
      (List.Pairwise.sublist (by simp) hs)
      (fun x hx => ⟨(hmem x (List.mem_cons_of_mem _ hx)).1,
        ends_le_start hd hs hlt x hx⟩)
      (length_spliceOne_ge hsA)

/-- The output of the descending-offset splice loop in closed form: original
segments interleaved with substitution texts.  The list argument is in
descending-`start` order, so the recursion peels the rightmost match first. -/
def weaveSub (sub : PiiMatch → PyStr) : List PiiMatch → PyStr → PyStr
  | [], t => t
  | m :: rest, t => weaveSub sub rest (t.take m.start) ++ sub m ++ t.drop m.endPos

theorem foldl_splice_eq_weave {sub : PiiMatch → PyStr} :
    ∀ (l : List PiiMatch) (t : PyStr),
      l.Pairwise noOverlap → l.Pairwise (fun a b => b.start ≤ a.start) →
      (∀ x ∈ l, x.start < x.endPos ∧ x.endPos ≤ t.length) →
      l.foldl (spliceOne sub) t = weaveSub sub l t := by
  intro l
  induction l with
  | nil => intro t _ _ _; rfl
  | cons m rest ih =>
    intro t hd hs hmem
    obtain ⟨hlt, hend⟩ := hmem m (List.mem_cons_self _ _)
    have hsA : m.start ≤ t.length := by omega
    have htake : (t.take m.start).length = m.start := by
      simp only [List.length_take]
      omega
    have hsplice : spliceOne sub t m =
        t.take m.start ++ (sub m ++ t.drop m.endPos) := by
      unfold spliceOne
      simp [List.append_assoc]
    have hrest_mem : ∀ x ∈ rest, x.start < x.endPos ∧ x.endPos ≤ (t.take m.start).length := by
      intro x hx
      exact ⟨(hmem x (List.mem_cons_of_mem _ hx)).1, by
        rw [htake]
        exact ends_le_start hd hs hlt x hx⟩
    have hdrest := List.Pairwise.sublist (List.sublist_cons_self m rest) hd
    have hsrest := List.Pairwise.sublist (List.sublist_cons_self m rest) hs
    simp only [List.foldl_cons, hsplice]
    rw [foldl_splice_append rest (t.take m.start) (sub m ++ t.drop m.endPos) m.start
      hdrest hsrest (fun x hx => ⟨(hrest_mem x hx).1, by
        have := (hrest_mem x hx).2
        omega⟩) (by omega)]
    rw [ih (t.take m.start) hdrest hsrest hrest_mem]
    show weaveSub sub rest (t.take m.start) ++ (sub m ++ t.drop m.endPos) =
      weaveSub sub (m :: rest) t
    rw [weaveSub]
    simp [List.append_assoc]

/-- Length bookkeeping for the splice loop, stated additively so that it also
covers empty spans.  `l` is in descending-`start` order. -/
theorem foldl_splice_length {sub : PiiMatch → PyStr} :
    ∀ (l : List PiiMatch) (B : PyStr),
      l.Pairwise noOverlap → l.Pairwise (fun a b => b.start ≤ a.start) →
      (∀ x ∈ l, x.start ≤ x.endPos ∧ x.endPos ≤ B.length) →
      (l.foldl (spliceOne sub) B).length + (l.map (fun m => m.endPos - m.start)).sum
        = B.length + (l.map (fun m => (sub m).length)).sum := by
  intro l
  induction l with
  | nil => intro B _ _ _; simp
  | cons m rest ih =>
    intro B hd hs hmem
    obtain ⟨hle, hend⟩ := hmem m (List.mem_cons_self _ _)
    have hlenB : (spliceOne sub B m).length = m.start + (sub m).length + (B.length - m.endPos) := by
      unfold spliceOne
      simp only [List.length_append, List.length_take, List.length_drop]
      omega
    have hrest_mem : ∀ x ∈ rest, x.start ≤ x.endPos ∧ x.endPos ≤ (spliceOne sub B m).length := by
      intro x hx
      refine ⟨(hmem x (List.mem_cons_of_mem _ hx)).1, ?_⟩
      have hxend := (hmem x (List.mem_cons_of_mem _ hx)).2
      by_cases hcase : m.start < m.endPos
      · have : x.endPos ≤ m.start := ends_le_start hd hs hcase x hx
        omega
      · omega
    have hdrest := List.Pairwise.sublist (List.sublist_cons_self m rest) hd
    have hsrest := List.Pairwise.sublist (List.sublist_cons_self m rest) hs
    have hihr := ih (spliceOne sub B m) hdrest hsrest hrest_mem
    simp only [List.foldl_cons, List.map_cons, List.sum_cons]
    omega

theorem validMatch_take {t : PyStr} {m : PiiMatch} {k : Nat} (hv : validMatch t m)
    (h : m.endPos ≤ k) : validMatch (t.take k) m := by
  obtain ⟨h1, h2, h3⟩ := hv
  refine ⟨h1, ?_, ?_⟩
  · simp only [List.length_take]
    omega
  · rw [h3]
    unfold pySlice
    rw [List.take_take]
    congr 2
    omega

theorem text_reassemble {t : PyStr} {m : PiiMatch} (hv : validMatch t m) :
    t.take m.start ++ m.text ++ t.drop m.endPos = t := by
  obtain ⟨h1, h2, h3⟩ := hv
  rw [h3]
  unfold pySlice
  have heq : t.take m.start = (t.take m.endPos).take m.start := by
    rw [List.take_take]
    congr 1
    omega
  rw [heq, List.take_append_drop, List.take_append_drop]

/-- Core of the round-trip property: decrypting the weave of marker-free
segments and markers restores the original text, in front of any
continuation that is empty or starts with a marker. -/
theorem roundtrip_weave {enc : PyStr → PyStr} {dec : PyStr → Option PyStr}
    (hdec : ∀ s, dec (enc s) = some s) (htok : ∀ s, wfTok (enc s) = true) :
    ∀ (l : List PiiMatch) (t cont : PyStr),
      l.Pairwise noOverlap → l.Pairwise (fun a b => b.start ≤ a.start) →
      (∀ x ∈ l, validMatch t x ∧ x.start < x.endPos ∧ wfEty x.entity_type = true) →
      markerFree t = true →
      (cont = [] ∨ ∃ r, cont = '{' :: '{' :: r) →
      substMarkers (decFun dec) (weaveSub (encSub enc) l t ++ cont)
        = t ++ substMarkers (decFun dec) cont := by
  intro l
  induction l with
  | nil =>
    intro t cont _ _ _ hfree hcont
    rcases hcont with rfl | ⟨r, rfl⟩
    · rw [List.append_nil, substMarkers_nil, List.append_nil]
      exact substMarkers_free hfree
    · exact substMarkers_append_free hfree
  | cons m rest ih =>
    intro t cont hd hs hmem hfree hcont
    obtain ⟨hv, hlt, hety⟩ := hmem m (List.mem_cons_self _ _)
    have hdrest := List.Pairwise.sublist (List.sublist_cons_self m rest) hd
    have hsrest := List.Pairwise.sublist (List.sublist_cons_self m rest) hs
    have hrest_mem : ∀ x ∈ rest,
        validMatch (t.take m.start) x ∧ x.start < x.endPos ∧ wfEty x.entity_type = true := by
      intro x hx
      obtain ⟨hvx, hltx, hetyx⟩ := hmem x (List.mem_cons_of_mem _ hx)
      exact ⟨validMatch_take hvx (ends_le_start hd hs hlt x hx), hltx, hetyx⟩
    have hfree_take := markerFree_take hfree m.start
    have hfree_drop := markerFree_drop hfree m.endPos
    rw [weaveSub]
    have hgroup : weaveSub (encSub enc) rest (t.take m.start) ++ encSub enc m
        ++ t.drop m.endPos ++ cont
        = weaveSub (encSub enc) rest (t.take m.start)
          ++ (encSub enc m ++ (t.drop m.endPos ++ cont)) := by
      simp [List.append_assoc]
    rw [hgroup]
    have hcont2 : encSub enc m ++ (t.drop m.endPos ++ cont) = [] ∨
        ∃ r, encSub enc m ++ (t.drop m.endPos ++ cont) = '{' :: '{' :: r := by
      right
      unfold encSub markerChars
      refine ⟨('E' :: 'N' :: 'C' :: ':' :: (m.entity_type ++ ':' :: (enc m.text ++ ['}', '}'])))
        ++ (t.drop m.endPos ++ cont), ?_⟩
      simp
    rw [ih (t.take m.start) (encSub enc m ++ (t.drop m.endPos ++ cont))
      hdrest hsrest hrest_mem hfree_take hcont2]
    unfold encSub
    rw [substMarkers_marker (t.drop m.endPos ++ cont) hety (htok m.text)]
    have hstep : decFun dec m.entity_type (enc m.text) = m.text := by
      unfold decFun
      rw [hdec m.text]
    rw [hstep]
    have hskip : substMarkers (decFun dec) (t.drop m.endPos ++ cont)
        = t.drop m.endPos ++ substMarkers (decFun dec) cont := by
      rcases hcont with rfl | ⟨r, rfl⟩
      · rw [List.append_nil, substMarkers_nil, List.append_nil]
        exact substMarkers_free hfree_drop
      · exact substMarkers_append_free hfree_drop
    rw [hskip]
    have := text_reassemble hv
    calc t.take m.start ++ (m.text ++ (t.drop m.endPos ++ substMarkers (decFun dec) cont))
        = (t.take m.start ++ m.text ++ t.drop m.endPos) ++ substMarkers (decFun dec) cont := by
          simp [List.append_assoc]
      _ = t ++ substMarkers (decFun dec) cont := by rw [this]

/-- Model of `re.finditer("\n", text)`: the offsets just after each newline
(`match.end()`), scanning from absolute position `i`. -/
def newlineEnds : PyStr → Nat → List Nat
  | [], _ => []
  | c :: cs, i => if c = '\n' then (i + 1) :: newlineEnds cs (i + 1) else newlineEnds cs (i + 1)

/-- Model of `calculate_line_col_map`: offset `0` followed by the end offset of
every newline, in document order. -/
def calculate_line_col_map (text : PyStr) : List Nat := 0 :: newlineEnds text 0

/-- The linear scan with break in `offset_to_line_col`: `i` is the index of
the next entry, `acc` the last index whose start was `<= offset` (initially
`0`, like `line_index = 0` in the source). -/
def scanLineIndex (offset : Nat) : List Nat → Nat → Nat → Nat
  | [], _, acc => acc
  | s :: rest, i, acc => if s ≤ offset then scanLineIndex offset rest (i + 1) i else acc

/-- Model of `offset_to_line_col(offset, line_starts)`.  On the outputs of
`calculate_line_col_map` the chosen `line_start` is always `<= offset`, so the
`Nat` subtraction in the column agrees with Python's integer arithmetic (and
`getD _ 0` is never out of range, where Python would raise `IndexError`). -/
def offset_to_line_col (offset : Nat) (line_starts : List Nat) : Nat × Nat :=
  (scanLineIndex offset line_starts 0 0 + 1,
    offset - line_starts.getD (scanLineIndex offset line_starts 0 0) 0 + 1)

theorem scanLineIndex_eq_takeWhile (offset : Nat) :
    ∀ (l : List Nat) (i acc : Nat),
      scanLineIndex offset l i acc =
        if (l.takeWhile (fun s => decide (s ≤ offset))).length = 0 then acc
        else (l.takeWhile (fun s => decide (s ≤ offset))).length + i - 1 := by
  intro l
  induction l with
  | nil => intro i acc; simp [scanLineIndex]
  | cons s rest ih =>
    intro i acc
    unfold scanLineIndex
    by_cases h : s ≤ offset
    · rw [if_pos h, ih (i + 1) i]
      have htw : (s :: rest).takeWhile (fun x => decide (x ≤ offset))
          = s :: rest.takeWhile (fun x => decide (x ≤ offset)) := by
        rw [List.takeWhile_cons]
        simp [h]
      rw [htw]
      simp only [List.length_cons]
      rcases Nat.eq_zero_or_pos (rest.takeWhile (fun x => decide (x ≤ offset))).length with hz | hz
      · rw [if_pos hz, if_neg (by omega)]
        omega
      · rw [if_neg (by omega), if_neg (by omega)]
        omega
    · rw [if_neg h]
      have htw : (s :: rest).takeWhile (fun x => decide (x ≤ offset)) = [] := by
        rw [List.takeWhile_cons]
        simp [h]
      rw [htw]
      simp

theorem newlineEnds_gt : ∀ (t : PyStr) (i : Nat), ∀ x ∈ newlineEnds t i, i < x := by
  intro t
  induction t with
  | nil => intro i x hx; simp [newlineEnds] at hx
  | cons c cs ih =>
    intro i x hx
    unfold newlineEnds at hx
    by_cases h : c = '\n'
    · rw [if_pos h] at hx
      rcases List.mem_cons.mp hx with rfl | hx2
      · omega
      · have := ih (i + 1) x hx2
        omega
    · rw [if_neg h] at hx
      have := ih (i + 1) x hx
      omega

theorem newlineEnds_pairwise : ∀ (t : PyStr) (i : Nat),
    (newlineEnds t i).Pairwise (· < ·) := by
  intro t
  induction t with
  | nil => intro i; simp [newlineEnds]
  | cons c cs ih =>
    intro i
    unfold newlineEnds
    by_cases h : c = '\n'
    · rw [if_pos h]
      rw [List.pairwise_cons]
      exact ⟨fun x hx => newlineEnds_gt cs (i + 1) x hx, ih (i + 1)⟩
    · rw [if_neg h]
      exact ih (i + 1)

theorem calculate_pairwise (t : PyStr) :
    (calculate_line_col_map t).Pairwise (· < ·) := by
  unfold calculate_line_col_map
  rw [List.pairwise_cons]
  exact ⟨fun x hx => newlineEnds_gt t 0 x hx, newlineEnds_pairwise t 0⟩

theorem newlineEnds_mem : ∀ (t : PyStr) (i p : Nat) (hp : p < t.length),
    t.get ⟨p, hp⟩ = '\n' → (i + p + 1) ∈ newlineEnds t i := by
  intro t
  induction t with
  | nil => intro i p hp; simp at hp
  | cons c cs ih =>
    intro i p hp hnl
    unfold newlineEnds
    cases p with
    | zero =>
      simp only [List.get] at hnl
      rw [if_pos hnl]
      exact List.mem_cons_self _ _
    | succ q =>
      have hq : q < cs.length := by
        simp only [List.length_cons] at hp
        omega
      have hnl2 : cs.get ⟨q, hq⟩ = '\n' := hnl
      have hmem := ih (i + 1) q hq hnl2
      have harith : (i + 1) + q + 1 = i + (q + 1) + 1 := by omega
      rw [harith] at hmem
      by_cases h : c = '\n'
      · rw [if_pos h]
        exact List.mem_cons_of_mem _ hmem
      · rw [if_neg h]
        exact hmem

theorem dropWhile_eq_cons_head_false {α : Type} {p : α → Bool} :
    ∀ {l : List α} {c : α} {cs : List α}, l.dropWhile p = c :: cs → p c = false := by
  intro l
  induction l with
  | nil => intro c cs h; simp [List.dropWhile] at h
  | cons a l2 ih =>
    intro c cs h
    rw [List.dropWhile_cons] at h
    by_cases hp : p a = true
    · rw [if_pos hp] at h
      exact ih h
    · rw [if_neg hp] at h
      injection h with h1 h2
      rw [← h1]
      simpa using hp

theorem sorted_takeWhile_le_all {l : List Nat} {o : Nat} (hs : l.Pairwise (· < ·)) :
    ∀ x ∈ l, x ≤ o → x ∈ l.takeWhile (fun s => decide (s ≤ o)) := by
  intro x hx hxo
  have hrest : l.takeWhile (fun s => decide (s ≤ o)) ++ l.dropWhile (fun s => decide (s ≤ o)) = l :=
    List.takeWhile_append_dropWhile (fun s => decide (s ≤ o)) l
  by_cases hmem : x ∈ l.takeWhile (fun s => decide (s ≤ o))
  · exact hmem
  · exfalso
    have hx2 : x ∈ l.dropWhile (fun s => decide (s ≤ o)) := by
      rw [← hrest] at hx
      rcases List.mem_append.mp hx with h | h
      · exact absurd h hmem
      · exact h
    cases hrc : l.dropWhile (fun s => decide (s ≤ o)) with
    | nil => rw [hrc] at hx2; simp at hx2
    | cons r0 rs =>
      have hr0 : (fun s => decide (s ≤ o)) r0 = false :=
        @dropWhile_eq_cons_head_false Nat (fun s => decide (s ≤ o)) l r0 rs hrc
      have hr0o : ¬ (r0 ≤ o) := by simpa using hr0
      have hpw : (l.takeWhile (fun s => decide (s ≤ o)) ++ (r0 :: rs)).Pairwise (· < ·) := by
        rw [hrc] at hrest
        rw [hrest]
        exact hs
      rw [hrc] at hx2
      rcases List.mem_cons.mp hx2 with rfl | hx3
      · omega
      · have := (List.pairwise_append.mp hpw).2.1
        rw [List.pairwise_cons] at this
        have := this.1 x hx3
        omega

theorem takeWhile_le_nonempty (t : PyStr) (offset : Nat) :
    1 ≤ ((calculate_line_col_map t).takeWhile (fun s => decide (s ≤ offset))).length := by
  unfold calculate_line_col_map
  rw [List.takeWhile_cons]
  simp

theorem offset_to_line_col_eq (t : PyStr) (offset : Nat) :
    offset_to_line_col offset (calculate_line_col_map t) =
      (((calculate_line_col_map t).takeWhile (fun s => decide (s ≤ offset))).length,
        offset - (calculate_line_col_map t).getD
          (((calculate_line_col_map t).takeWhile (fun s => decide (s ≤ offset))).length - 1) 0
          + 1) := by
  have hn := takeWhile_le_nonempty t offset
  unfold offset_to_line_col
  rw [scanLineIndex_eq_takeWhile]
  rw [if_neg (by omega)]
  simp only [Nat.add_zero]
  have hsucc : (List.takeWhile (fun s => decide (s ≤ offset)) (calculate_line_col_map t)).length
      - 1 + 1
      = (List.takeWhile (fun s => decide (s ≤ offset)) (calculate_line_col_map t)).length := by
    omega
  rw [hsucc]

theorem sorted_getD_takeWhile {l : List Nat} {o : Nat}
    (hlen : 1 ≤ (l.takeWhile (fun s => decide (s ≤ o))).length) :
    l.getD ((l.takeWhile (fun s => decide (s ≤ o))).length - 1) 0 ≤ o := by
  have hrest := List.takeWhile_append_dropWhile (fun s => decide (s ≤ o)) l
  set tw := l.takeWhile (fun s => decide (s ≤ o)) with htw
  have hlt : tw.length - 1 < tw.length := by omega
  have hgd : l.getD (tw.length - 1) 0 = tw.getD (tw.length - 1) 0 := by
    conv_lhs => rw [← hrest]
    simp only [List.getD_eq_getElem?_getD]
    rw [List.getElem?_append_left hlt]
  rw [hgd]
  have hmem : tw.getD (tw.length - 1) 0 ∈ tw := by
    rw [List.getD_eq_getElem?_getD]
    rw [List.getElem?_eq_getElem hlt]
    exact List.getElem_mem _
  have := List.all_eq_true.mp (all_takeWhile (fun s => decide (s ≤ o)) l) _ hmem
  simpa using this

theorem sorted_greatest_index {l : List Nat} {o : Nat} (hs : l.Pairwise (· < ·)) :
    ∀ j, j < l.length → l.getD j 0 ≤ o →
      j ≤ (l.takeWhile (fun s => decide (s ≤ o))).length - 1 := by
  intro j hj hle
  by_contra hgt
  set tw := l.takeWhile (fun s => decide (s ≤ o)) with htwdef
  have hrest := List.takeWhile_append_dropWhile (fun s => decide (s ≤ o)) l
  have hjn : tw.length ≤ j := by omega
  have hlenl : tw.length + (l.dropWhile (fun s => decide (s ≤ o))).length = l.length := by
    conv_rhs => rw [← hrest]
    rw [List.length_append]
  cases hrc : l.dropWhile (fun s => decide (s ≤ o)) with
  | nil =>
    rw [hrc] at hlenl
    simp only [List.length_nil] at hlenl
    omega
  | cons r0 rs =>
    have hr0 : ¬ (r0 ≤ o) := by
      have := @dropWhile_eq_cons_head_false Nat (fun s => decide (s ≤ o)) l r0 rs hrc
      simpa using this
    have hnth : l.getD tw.length 0 = r0 := by
      conv_lhs => rw [← hrest]
      simp only [List.getD_eq_getElem?_getD]
      rw [List.getElem?_append_right (Nat.le_refl _)]
      rw [hrc]
      simp
    rcases Nat.eq_or_lt_of_le hjn with heq | hlt2
    · rw [← heq] at hle
      rw [hnth] at hle
      exact hr0 hle
    · have hjl : l.getD tw.length 0 < l.getD j 0 := by
        have htwlt : tw.length < l.length := by omega
        have h1 : l.getD tw.length 0 = l.get ⟨tw.length, htwlt⟩ := by
          simp [List.getD_eq_getElem?_getD, List.getElem?_eq_getElem htwlt]
        have h2 : l.getD j 0 = l.get ⟨j, hj⟩ := by
          simp [List.getD_eq_getElem?_getD, List.getElem?_eq_getElem hj]
        rw [h1, h2]
        exact List.pairwise_iff_getElem.mp hs tw.length j htwlt hj hlt2
      rw [hnth] at hjl
      omega

theorem resolve_zero (t : PyStr) :
    offset_to_line_col 0 (calculate_line_col_map t) = (1, 1) := by
  rw [offset_to_line_col_eq]
  have htw : (calculate_line_col_map t).takeWhile (fun s => decide (s ≤ 0)) = [0] := by
    unfold calculate_line_col_map
    rw [List.takeWhile_cons]
    simp only [Nat.le_refl, decide_eq_true_eq, if_pos]
    cases hne : newlineEnds t 0 with
    | nil => simp
    | cons x xs =>
      have hx : 0 < x := newlineEnds_gt t 0 x (by rw [hne]; exact List.mem_cons_self _ _)
      rw [List.takeWhile_cons]
      have : ¬ (x ≤ 0) := by omega
      simp [this]
  rw [htw]
  simp [calculate_line_col_map]

theorem sorted_takeWhile_length_eq_countP {l : List Nat} (o : Nat) (hs : l.Pairwise (· < ·)) :
    (l.takeWhile (fun s => decide (s ≤ o))).length = l.countP (fun s => decide (s ≤ o)) := by
  have hrest := List.takeWhile_append_dropWhile (fun s => decide (s ≤ o)) l
  conv_rhs => rw [← hrest]
  rw [List.countP_append]
  have h1 : (l.takeWhile (fun s => decide (s ≤ o))).countP (fun s => decide (s ≤ o))
      = (l.takeWhile (fun s => decide (s ≤ o))).length :=
    List.countP_eq_length.mpr (fun a ha => List.all_eq_true.mp (all_takeWhile _ _) a ha)
  have h2 : (l.dropWhile (fun s => decide (s ≤ o))).countP (fun s => decide (s ≤ o)) = 0 := by
    rw [List.countP_eq_zero]
    intro a ha
    cases hrc : l.dropWhile (fun s => decide (s ≤ o)) with
    | nil =>
      rw [hrc] at ha
      simp at ha
    | cons r0 rs =>
      have hr0 : ¬ (r0 ≤ o) := by
        have := @dropWhile_eq_cons_head_false Nat (fun s => decide (s ≤ o)) l r0 rs hrc
        simpa using this
      have hpw : ((l.takeWhile (fun s => decide (s ≤ o)))
          ++ l.dropWhile (fun s => decide (s ≤ o))).Pairwise (· < ·) := by
        rw [hrest]
        exact hs
      have hdwpw := (List.pairwise_append.mp hpw).2.1
      rw [hrc] at ha hdwpw
      rcases List.mem_cons.mp ha with rfl | ha2
      · simpa using hr0
      · have hlt := (List.pairwise_cons.mp hdwpw).1 a ha2
        simp only [decide_eq_true_eq]
        omega
  rw [h1, h2]
  omega

theorem countP_le_succ_split (p : Nat) : ∀ l : List Nat,
    l.countP (fun s => decide (s ≤ p + 1))
      = l.countP (fun s => decide (s ≤ p)) + l.count (p + 1) := by
  intro l
  induction l with
  | nil => simp
  | cons a rest ih =>
    rw [List.countP_cons, List.countP_cons, List.count_cons, ih]
    by_cases h1 : a ≤ p
    · have c1 : decide (a ≤ p) = true := decide_eq_true h1
      have c2 : decide (a ≤ p + 1) = true := decide_eq_true (by omega)
      have c3 : ¬ ((a == p + 1) = true) := by
        simp only [beq_iff_eq]
        omega
      rw [if_pos c1, if_pos c2, if_neg c3]
      omega
    · by_cases h4 : a = p + 1
      · have c1 : ¬ (decide (a ≤ p) = true) := by
          simp only [decide_eq_true_eq]
          omega
        have c2 : decide (a ≤ p + 1) = true := decide_eq_true (by omega)
        have c3 : (a == p + 1) = true := by
          simp only [beq_iff_eq]
          omega
        rw [if_neg c1, if_pos c2, if_pos c3]
        omega
      · have c1 : ¬ (decide (a ≤ p) = true) := by
          simp only [decide_eq_true_eq]
          omega
        have c2 : ¬ (decide (a ≤ p + 1) = true) := by
          simp only [decide_eq_true_eq]
          omega
        have c3 : ¬ ((a == p + 1) = true) := by
          simp only [beq_iff_eq]
          omega
        rw [if_neg c1, if_neg c2, if_neg c3]
        omega

theorem sorted_last_takeWhile_mem {l : List Nat} (o : Nat) (hs : l.Pairwise (· < ·))
    (hmem : o ∈ l) :
    l.getD ((l.takeWhile (fun s => decide (s ≤ o))).length - 1) 0 = o := by
  have hpre : l.takeWhile (fun s => decide (s ≤ o)) <+: l :=
    List.takeWhile_prefix (fun s => decide (s ≤ o))
  set tw := l.takeWhile (fun s => decide (s ≤ o)) with htwdef
  have hotw : o ∈ tw := sorted_takeWhile_le_all hs o hmem (Nat.le_refl o)
  have hn : 1 ≤ tw.length := by
    cases htc : tw with
    | nil => rw [htc] at hotw; simp at hotw
    | cons a as => simp [htc]
  have hlt : tw.length - 1 < tw.length := by omega
  have hgd : l.getD (tw.length - 1) 0 = tw.getD (tw.length - 1) 0 := by
    obtain ⟨rest2, hrest2⟩ := hpre
    conv_lhs => rw [← hrest2]
    simp only [List.getD_eq_getElem?_getD]
    rw [List.getElem?_append_left hlt]
  rw [hgd]
  have hlast_mem : tw.getD (tw.length - 1) 0 ∈ tw := by
    rw [List.getD_eq_getElem?_getD, List.getElem?_eq_getElem hlt]
    exact List.getElem_mem _
  have hle_all : ∀ x ∈ tw, x ≤ o := by
    intro x hx
    have := List.all_eq_true.mp (all_takeWhile (fun s => decide (s ≤ o)) l) x hx
    simpa using this
  have htwpw : tw.Pairwise (· < ·) := List.Pairwise.sublist hpre.sublist hs
  obtain ⟨j, hjlt, hje⟩ := List.getElem_of_mem hotw
  rcases Nat.lt_or_ge j (tw.length - 1) with hjcase | hjcase
  · exfalso
    have hpair := List.pairwise_iff_getElem.mp htwpw j (tw.length - 1) hjlt hlt hjcase
    rw [hje] at hpair
    have hlastle : tw.getD (tw.length - 1) 0 ≤ o := hle_all _ hlast_mem
    have hgd2 : tw.getD (tw.length - 1) 0 = tw.get ⟨tw.length - 1, hlt⟩ := by
      simp [List.getD_eq_getElem?_getD, List.getElem?_eq_getElem hlt]
    rw [hgd2] at hlastle
    have : o < tw.get ⟨tw.length - 1, hlt⟩ := hpair
    omega
  · have hjeq : j = tw.length - 1 := by omega
    rw [← hjeq]
    simp [List.getD_eq_getElem?_getD, List.getElem?_eq_getElem hjlt, hje]

theorem resolve_after_newline (t : PyStr) (q : Nat) (hq : q < t.length)
    (hnl : t.get ⟨q, hq⟩ = '\n') :
    offset_to_line_col (q + 1) (calculate_line_col_map t)
      = ((offset_to_line_col q (calculate_line_col_map t)).1 + 1, 1) := by
  have hs := calculate_pairwise t
  have hmem : (q + 1) ∈ calculate_line_col_map t := by
    unfold calculate_line_col_map
    refine List.mem_cons_of_mem _ ?_
    have := newlineEnds_mem t 0 q hq hnl
    simpa using this
  have hnodup : (calculate_line_col_map t).Nodup := List.Pairwise.nodup hs
  have hcount : (calculate_line_col_map t).count (q + 1) = 1 :=
    List.count_eq_one_of_mem hnodup hmem
  have hlen : ((calculate_line_col_map t).takeWhile (fun s => decide (s ≤ q + 1))).length
      = ((calculate_line_col_map t).takeWhile (fun s => decide (s ≤ q))).length + 1 := by
    rw [sorted_takeWhile_length_eq_countP (q + 1) hs, sorted_takeWhile_length_eq_countP q hs]
    rw [countP_le_succ_split q (calculate_line_col_map t), hcount]
  rw [offset_to_line_col_eq, offset_to_line_col_eq]
  have hlast := sorted_last_takeWhile_mem (q + 1) hs hmem
  rw [hlast, hlen]
  simp

theorem takeWhile_length_le {α : Type} (p : α → Bool) (l : List α) :
    (l.takeWhile p).length ≤ l.length :=
  (List.takeWhile_prefix p).sublist.length_le

theorem dropWhile_length_le {α : Type} (p : α → Bool) (l : List α) :
    (l.dropWhile p).length ≤ l.length := by
  have h := List.takeWhile_append_dropWhile p l
  have h2 := congrArg List.length h
  rw [List.length_append] at h2
  omega

/-- One detection result of the external presidio analyzer
(`RecognizerResult`): untrusted span boundaries, entity type and confidence
(`r.score` may be `None`, which `analyze_pii` maps to `0.0` via `or`). -/
structure RecognizerResult where
  start : Nat
  endPos : Nat
  entity_type : PyStr
  score : Option Float

/-- An analyzer engine, abstracting `AnalyzerEngine.analyze`: it maps a text
and an optional entity filter to a list of results. -/
abbrev Analyzer := PyStr → Option (List PyStr) → List RecognizerResult

/-- The external spaCy/presidio environment seen by `build_analyzer`:
`tryModel name` is `some engine` when building an `AnalyzerEngine` on the
named spaCy model and running the warm-up call both succeed (the whole `try`
body), and `none` when any step raises; `tryDefault` likewise for the default
`AnalyzerEngine()` fallback. -/
structure SpacyEnv where
  tryModel : PyStr → Option Analyzer
  tryDefault : Option Analyzer

/-- The error message raised when no model works (the source appends the
original exception text; the claims only depend on an error being raised). -/
def noSpacyModelMsg : PyStr :=
  "No usable spaCy English model found. Install one and retry.".data

/-- Model of `build_analyzer`: try `en_core_web_lg`, then `en_core_web_sm`
(the `for` loop with `continue` on exception), then the default engine, and
raise `RuntimeError` if everything failed. -/
def build_analyzer (env : SpacyEnv) : Except PyStr Analyzer :=
  match env.tryModel "en_core_web_lg".data with
  | some a => Except.ok a
  | none =>
    match env.tryModel "en_core_web_sm".data with
    | some a => Except.ok a
    | none =>
      match env.tryDefault with
      | some a => Except.ok a
      | none => Except.error noSpacyModelMsg

/-- Model of `analyze_pii`: build the analyzer (propagating its failure),
run it, and decorate each result with the captured snippet
`md_text[start:end]` and the 1-indexed line/column of `start`. -/
def analyze_pii (env : SpacyEnv) (md_text : PyStr) (entities : Option (List PyStr)) :
    Except PyStr (List PiiMatch) :=
  match build_analyzer env with
  | Except.error e => Except.error e
  | Except.ok analyzer =>
    Except.ok ((analyzer md_text entities).map (fun r =>
      { start := r.start
        endPos := r.endPos
        entity_type := r.entity_type
        score := r.score.getD 0.0
        text := pySlice md_text r.start r.endPos
        line := (offset_to_line_col r.start (calculate_line_col_map md_text)).1
        column := (offset_to_line_col r.start (calculate_line_col_map md_text)).2 }))

/-- Binary digits of a number, least significant first, over the letters
`a` (0) and `b` (1).  Used only to build a concrete invertible cipher for
the round-trip counterexample. -/
def natToBin (n : Nat) : List Char :=
  if h : n = 0 then []
  else (if n % 2 = 1 then 'b' else 'a') :: natToBin (n / 2)
decreasing_by
  exact Nat.div_lt_self (Nat.pos_of_ne_zero h) (by decide)

def binToNat : List Char → Nat
  | [] => 0
  | c :: cs => (if c = 'b' then 1 else 0) + 2 * binToNat cs

theorem binToNat_natToBin : ∀ n, binToNat (natToBin n) = n := by
  intro n
  induction n using Nat.strong_induction_on with
  | _ n ih =>
    unfold natToBin
    by_cases h : n = 0
    · simp [h, binToNat]
    · rw [dif_neg h]
      have hrec := ih (n / 2) (Nat.div_lt_self (Nat.pos_of_ne_zero h) (by decide))
      by_cases h2 : n % 2 = 1
      · rw [if_pos h2]
        show binToNat ('b' :: natToBin (n / 2)) = n
        rw [binToNat, hrec, if_pos rfl]
        omega
      · rw [if_neg h2]
        show binToNat ('a' :: natToBin (n / 2)) = n
        have hne : ¬ (('a' : Char) = 'b') := by decide
        rw [binToNat, hrec, if_neg hne]
        omega

theorem natToBin_chars : ∀ n, ∀ x ∈ natToBin n, x = 'a' ∨ x = 'b' := by
  intro n
  induction n using Nat.strong_induction_on with
  | _ n ih =>
    intro x hx
    unfold natToBin at hx
    by_cases h : n = 0
    · rw [dif_pos h] at hx
      simp at hx
    · rw [dif_neg h] at hx
      rcases List.mem_cons.mp hx with rfl | hx2
      · by_cases h2 : n % 2 = 1
        · rw [if_pos h2]
          exact Or.inr rfl
        · rw [if_neg h2]
          exact Or.inl rfl
      · exact ih (n / 2) (Nat.div_lt_self (Nat.pos_of_ne_zero h) (by decide)) x hx2

/-- Concrete invertible cipher used in counterexamples: each character becomes
a `c`-separated binary group, with a leading `A` so the token body is
nonempty. -/
def tokEncodeBody : PyStr → PyStr
  | [] => []
  | c :: cs => 'c' :: (natToBin c.toNat ++ tokEncodeBody cs)

def tokEncode (s : PyStr) : PyStr := 'A' :: tokEncodeBody s

def tokDecodeBody : PyStr → Option PyStr
  | [] => some []
  | 'c' :: cs =>
    match tokDecodeBody (cs.dropWhile (fun d => !(d == 'c'))) with
    | some rest =>
      some (Char.ofNat (binToNat (cs.takeWhile (fun d => !(d == 'c')))) :: rest)
    | none => none
  | _ => none
termination_by cs => cs.length
decreasing_by
  have := dropWhile_length_le (fun d => !(d == 'c')) cs
  simp only [List.length_cons]
  omega

def tokDecode (t : PyStr) : Option PyStr :=
  match t with
  | 'A' :: rest => tokDecodeBody rest
  | _ => none

theorem tokEncodeBody_chars : ∀ s, ∀ x ∈ tokEncodeBody s, isTokChar x = true := by
  intro s
  induction s with
  | nil => intro x hx; simp [tokEncodeBody] at hx
  | cons c cs ih =>
    intro x hx
    unfold tokEncodeBody at hx
    rcases List.mem_cons.mp hx with rfl | hx2
    · decide
    · rcases List.mem_append.mp hx2 with h | h
      · rcases natToBin_chars c.toNat x h with rfl | rfl
        · decide
        · decide
      · exact ih x h

theorem wfTok_tokEncode (s : PyStr) : wfTok (tokEncode s) = true := by
  have hall : (tokEncode s).all isTokChar = true := by
    rw [List.all_eq_true]
    intro x hx
    unfold tokEncode at hx
    rcases List.mem_cons.mp hx with rfl | hx2
    · decide
    · exact tokEncodeBody_chars s x hx2
  unfold wfTok
  rw [takeWhile_eq_self_of_all hall, dropWhile_eq_nil_of_all hall]
  simp [tokEncode]

theorem tokDecodeBody_encode : ∀ s, tokDecodeBody (tokEncodeBody s) = some s := by
  intro s
  induction s with
  | nil =>
    show tokDecodeBody [] = some []
    rw [tokDecodeBody]
  | cons c cs ih =>
    show tokDecodeBody ('c' :: (natToBin c.toNat ++ tokEncodeBody cs)) = some (c :: cs)
    have hbin : ∀ x ∈ natToBin c.toNat, (fun d => !(d == 'c')) x = true := by
      intro x hx
      rcases natToBin_chars c.toNat x hx with rfl | rfl
      · decide
      · decide
    have htw : (natToBin c.toNat ++ tokEncodeBody cs).takeWhile (fun d => !(d == 'c'))
        = natToBin c.toNat := by
      rw [List.takeWhile_append_of_pos hbin]
      cases hec : tokEncodeBody cs with
      | nil => simp
      | cons d ds =>
        have hd : d = 'c' := by
          cases cs with
          | nil => simp [tokEncodeBody] at hec
          | cons c2 cs2 =>
            unfold tokEncodeBody at hec
            injection hec with h1 h2
            exact h1.symm
        rw [hd]
        simp [List.takeWhile_cons]
    have hdw : (natToBin c.toNat ++ tokEncodeBody cs).dropWhile (fun d => !(d == 'c'))
        = tokEncodeBody cs := by
      rw [List.dropWhile_append_of_pos hbin]
      cases hec : tokEncodeBody cs with
      | nil => simp
      | cons d ds =>
        have hd : d = 'c' := by
          cases cs with
          | nil => simp [tokEncodeBody] at hec
          | cons c2 cs2 =>
            unfold tokEncodeBody at hec
            injection hec with h1 h2
            exact h1.symm
        rw [hd]
        simp [List.dropWhile_cons]
    rw [tokDecodeBody]
    rw [htw, hdw, ih]
    rw [binToNat_natToBin, Char.ofNat_toNat]

theorem tokDecode_tokEncode (s : PyStr) : tokDecode (tokEncode s) = some s := by
  unfold tokDecode tokEncode
  exact tokDecodeBody_encode s

theorem distinct_starts_of_disjoint {l : List PiiMatch}
    (hd : l.Pairwise noOverlap) (hne : ∀ m ∈ l, m.start < m.endPos) :
    l.Pairwise (fun a b => a.start ≠ b.start) := by
  refine List.Pairwise.imp_of_mem ?_ hd
  intro a b ha hb hab
  have hna := hne a ha
  have hnb := hne b hb
  unfold noOverlap at hab
  omega

theorem sortDesc_eq_of_perm {l1 l2 : List PiiMatch} (hp : List.Perm l1 l2)
    (hd : l1.Pairwise noOverlap) (hne : ∀ m ∈ l1, m.start < m.endPos) :
    sortDesc l1 = sortDesc l2 := by
  have hnedup := distinct_starts_of_disjoint hd hne
  have hperm : List.Perm (sortDesc l1) (sortDesc l2) :=
    (sortDesc_perm l1).trans (hp.trans (sortDesc_perm l2).symm)
  have hne1 : (sortDesc l1).Pairwise (fun a b => a.start ≠ b.start) :=
    ((sortDesc_perm l1).pairwise_iff (fun h2 => Ne.symm h2)).mpr hnedup
  have hne2 : (sortDesc l2).Pairwise (fun a b => a.start ≠ b.start) :=
    (hperm.pairwise_iff (fun h2 => Ne.symm h2)).mp hne1
  have hstrict1 : (sortDesc l1).Pairwise (fun a b => b.start < a.start) := by
    have hand := List.pairwise_and_iff.mpr ⟨sortDesc_sorted l1, hne1⟩
    exact hand.imp (fun hx => by omega)
  have hstrict2 : (sortDesc l2).Pairwise (fun a b => b.start < a.start) := by
    have hand := List.pairwise_and_iff.mpr ⟨sortDesc_sorted l2, hne2⟩
    exact hand.imp (fun hx => by omega)
  haveI : IsAntisymm PiiMatch (fun a b => b.start < a.start) :=
    ⟨fun a b h1 h2 => absurd h1 (by omega)⟩
  exact List.eq_of_perm_of_sorted hperm hstrict1 hstrict2

/-- Plain text segments interleaved with markers: the document shape produced
by embedding encoded markers between arbitrary plain text.  Each list entry is
(entity type, token, following plain segment). -/
def interleave : PyStr → List (PyStr × PyStr × PyStr) → PyStr
  | s0, [] => s0
  | s0, (e, tk, s) :: rest => s0 ++ markerChars e tk ++ interleave s rest

/-- The scan result the codec contract expects on an interleaved document:
each embedded marker reported with its groups and its exact span. -/
def expectedHits : Nat → PyStr → List (PyStr × PyStr × PyStr) → List MarkerHit
  | _, _, [] => []
  | pos, s0, (e, tk, s) :: rest =>
    ⟨e, tk, pos + s0.length, pos + s0.length + (markerChars e tk).length⟩ ::
      expectedHits (pos + s0.length + (markerChars e tk).length) s rest

theorem scanAux_interleave :
    ∀ (l : List (PyStr × PyStr × PyStr)) (s0 : PyStr) (pos : Nat),
      markerFree s0 = true →
      (∀ x ∈ l, wfEty x.1 = true ∧ wfTok x.2.1 = true ∧ markerFree x.2.2 = true) →
      scanMarkersAux (interleave s0 l) pos = expectedHits pos s0 l := by
  intro l
  induction l with
  | nil =>
    intro s0 pos h0 _
    exact scanMarkersAux_free h0 pos
  | cons x rest ih =>
    intro s0 pos h0 hl
    obtain ⟨e, tk, s⟩ := x
    obtain ⟨he, htk, hseg⟩ := hl (e, tk, s) (List.mem_cons_self _ _)
    show scanMarkersAux (s0 ++ markerChars e tk ++ interleave s rest) pos
      = expectedHits pos s0 ((e, tk, s) :: rest)
    have hshape : markerChars e tk ++ interleave s rest =
        '{' :: '{' :: ('E' :: 'N' :: 'C' :: ':' :: (e ++ ':' :: (tk ++ ['}', '}']))
          ++ interleave s rest) := by
      unfold markerChars
      simp
    rw [List.append_assoc, hshape]
    rw [scanMarkersAux_append_free h0 pos]
    rw [← hshape]
    rw [scanMarkersAux_marker (interleave s rest) (pos + s0.length) he htk]
    rw [ih s (pos + s0.length + (markerChars e tk).length) hseg
      (fun y hy => hl y (List.mem_cons_of_mem _ hy))]
    rfl

theorem expectedHits_bounds :
    ∀ (l : List (PyStr × PyStr × PyStr)) (pos : Nat) (s0 : PyStr),
      ∀ hit ∈ expectedHits pos s0 l, pos ≤ hit.start ∧ hit.start < hit.stop := by
  intro l
  induction l with
  | nil => intro pos s0 hit h; simp [expectedHits] at h
  | cons x rest ih =>
    intro pos s0 hit h
    obtain ⟨e, tk, s⟩ := x
    rcases List.mem_cons.mp h with rfl | h2
    · have := markerChars_length_pos e tk
      constructor
      · simp only [MarkerHit.start]
        omega
      · simp only [MarkerHit.start, MarkerHit.stop]
        omega
    · have := ih (pos + s0.length + (markerChars e tk).length) s hit h2
      omega

theorem expectedHits_ordered :
    ∀ (l : List (PyStr × PyStr × PyStr)) (pos : Nat) (s0 : PyStr),
      List.Chain' (fun a b => MarkerHit.stop a ≤ b.start) (expectedHits pos s0 l) := by
  intro l
  induction l with
  | nil => intro pos s0; simp [expectedHits]
  | cons x rest ih =>
    intro pos s0
    obtain ⟨e, tk, s⟩ := x
    show List.Chain' _ (⟨e, tk, pos + s0.length, pos + s0.length + (markerChars e tk).length⟩ ::
      expectedHits (pos + s0.length + (markerChars e tk).length) s rest)
    rw [List.chain'_cons']
    constructor
    · intro y hy
      have hym : y ∈ expectedHits (pos + s0.length + (markerChars e tk).length) s rest :=
        List.mem_of_mem_head? hy
      have := expectedHits_bounds rest (pos + s0.length + (markerChars e tk).length) s y hym
      simp only [MarkerHit.stop]
      omega
    · exact ih (pos + s0.length + (markerChars e tk).length) s

theorem markerChars_head_shape (e t rest : PyStr) :
    ∃ r, markerChars e t ++ rest = '{' :: '{' :: r :=
  ⟨('E' :: 'N' :: 'C' :: ':' :: (e ++ ':' :: (t ++ ['}', '}']))) ++ rest, by
    unfold markerChars
    simp⟩

theorem substMarkers_skip_seg {f : PyStr → PyStr → PyStr} {seg : PyStr} (e t rest : PyStr)
    (hfree : markerFree seg = true) :
    substMarkers f (seg ++ (markerChars e t ++ rest))
      = seg ++ substMarkers f (markerChars e t ++ rest) := by
  obtain ⟨r, hr⟩ := markerChars_head_shape e t rest
  rw [hr]
  exact substMarkers_append_free hfree

theorem scanAux_skip_seg {seg : PyStr} (e t rest : PyStr) (pos : Nat)
    (hfree : markerFree seg = true) :
    scanMarkersAux (seg ++ (markerChars e t ++ rest)) pos
      = scanMarkersAux (markerChars e t ++ rest) (pos + seg.length) := by
  obtain ⟨r, hr⟩ := markerChars_head_shape e t rest
  rw [hr]
  exact scanMarkersAux_append_free hfree pos

theorem applyReplacements_length (sub : PiiMatch → PyStr) (t : PyStr) (ms : List PiiMatch)
    (hdisj : ms.Pairwise noOverlap) (hv : ∀ m ∈ ms, validMatch t m) :
    (applyReplacements sub t ms).length + (ms.map (fun m => m.text.length)).sum
      = t.length + (ms.map (fun m => (sub m).length)).sum := by
  have hdS := ((sortDesc_perm ms).pairwise_iff (fun h2 => noOverlap_symm h2)).mpr hdisj
  have hsS := sortDesc_sorted ms
  have hmemS : ∀ m ∈ sortDesc ms, m.start ≤ m.endPos ∧ m.endPos ≤ t.length := by
    intro m hm
    have hv2 := hv m ((sortDesc_perm ms).mem_iff.mp hm)
    exact ⟨hv2.1, hv2.2.1⟩
  have h := @foldl_splice_length sub (sortDesc ms) t hdS hsS hmemS
  have hspan : ∀ m ∈ sortDesc ms, m.endPos - m.start = m.text.length := by
    intro m hm
    have hv2 := hv m ((sortDesc_perm ms).mem_iff.mp hm)
    rw [hv2.2.2]
    unfold pySlice
    simp only [List.length_drop, List.length_take]
    have := hv2.1
    have := hv2.2.1
    omega
  have hmap1 : (sortDesc ms).map (fun m => m.endPos - m.start)
      = (sortDesc ms).map (fun m => m.text.length) :=
    List.map_congr_left hspan
  rw [hmap1] at h
  have hsum1 : ((sortDesc ms).map (fun m => m.text.length)).sum
      = (ms.map (fun m => m.text.length)).sum :=
    ((sortDesc_perm ms).map (fun m => m.text.length)).sum_eq
  have hsum2 : ((sortDesc ms).map (fun m => (sub m).length)).sum
      = (ms.map (fun m => (sub m).length)).sum :=
    ((sortDesc_perm ms).map (fun m => (sub m).length)).sum_eq
  unfold applyReplacements
  omega

/-- C1 (amended): round trip of the encryption path.  For every original text
that contains no substring matching the marker grammar, and every pairwise
non-overlapping set of non-empty matches whose captured `text` fields equal
the live substrings (with data-model entity types matching `[A-Z_]+`),
applying encryption replacements and then decrypting the resulting document
with the same key restores the original text exactly.  The cipher is any pair
`enc`/`dec` with `dec (enc s) = some s` whose tokens match the marker token
grammar, as Fernet tokens do. -/
theorem c1_encryption_roundtrip (enc : PyStr → PyStr) (dec : PyStr → Option PyStr)
    (hdec : ∀ s, dec (enc s) = some s) (htok : ∀ s, wfTok (enc s) = true)
    (t : PyStr) (ms : List PiiMatch)
    (hfree : markerFree t = true)
    (hv : ∀ m ∈ ms, validMatch t m)
    (hne : ∀ m ∈ ms, m.start < m.endPos)
    (hety : ∀ m ∈ ms, wfEty m.entity_type = true)
    (hdisj : ms.Pairwise noOverlap) :
    decrypt_markers dec (apply_encryption_replacements enc t ms) = t := by
  unfold apply_encryption_replacements applyReplacements
  rw [decrypt_markers_eq]
  have hdS := ((sortDesc_perm ms).pairwise_iff (fun h2 => noOverlap_symm h2)).mpr hdisj
  have hsS := sortDesc_sorted ms
  have hmemS : ∀ m ∈ sortDesc ms,
      validMatch t m ∧ m.start < m.endPos ∧ wfEty m.entity_type = true := by
    intro m hm
    have hm2 := (sortDesc_perm ms).mem_iff.mp hm
    exact ⟨hv m hm2, hne m hm2, hety m hm2⟩
  rw [foldl_splice_eq_weave (sortDesc ms) t hdS hsS
    (fun m hm => ⟨(hmemS m hm).2.1, (hmemS m hm).1.2.1⟩)]
  have hrt := roundtrip_weave hdec htok (sortDesc ms) t [] hdS hsS hmemS hfree (Or.inl rfl)
  rw [List.append_nil, substMarkers_nil, List.append_nil] at hrt
  exact hrt

theorem c1_encryption_roundtrip_witness :
    decrypt_markers tokDecode (apply_encryption_replacements tokEncode
      ("Contact: bob".data) [⟨9, 12, "EMAIL_ADDRESS".data, 0.85, "bob".data, 1, 10⟩])
      = "Contact: bob".data :=
  c1_encryption_roundtrip tokEncode tokDecode tokDecode_tokEncode wfTok_tokEncode
    ("Contact: bob".data) [⟨9, 12, "EMAIL_ADDRESS".data, 0.85, "bob".data, 1, 10⟩]
    (by decide) (by decide) (by decide) (by decide) (by decide)

/-- C1 (counterexample to the claim as stated): without the marker-free
restriction on the original text, the round trip fails.  A compliant cipher
(here a concrete invertible codec whose tokens match the grammar, playing the
role Fernet plays in the source) decrypts a marker that was already present in
the original document, so `decrypt(encrypt(text, [], key), key) != text`. -/
theorem c1_roundtrip_counterexample :
    ¬ (∀ (enc : PyStr → PyStr) (dec : PyStr → Option PyStr),
        (∀ s, dec (enc s) = some s) → (∀ s, wfTok (enc s) = true) →
        ∀ (t : PyStr) (ms : List PiiMatch),
          (∀ m ∈ ms, validMatch t m) →
          (∀ m ∈ ms, wfEty m.entity_type = true) →
          ms.Pairwise noOverlap →
          decrypt_markers dec (apply_encryption_replacements enc t ms) = t) := by
  intro hclaim
  have h := hclaim tokEncode tokDecode tokDecode_tokEncode wfTok_tokEncode
    (markerChars ('X' :: []) (tokEncode ('h' :: 'i' :: []))) []
    (by simp) (by simp) (by simp)
  have happ : apply_encryption_replacements tokEncode
      (markerChars ('X' :: []) (tokEncode ('h' :: 'i' :: []))) []
      = markerChars ('X' :: []) (tokEncode ('h' :: 'i' :: [])) := rfl
  rw [happ, decrypt_markers_eq] at h
  rw [show markerChars ('X' :: []) (tokEncode ('h' :: 'i' :: []))
      = markerChars ('X' :: []) (tokEncode ('h' :: 'i' :: [])) ++ []
    from (List.append_nil _).symm] at h
  rw [substMarkers_marker [] (by decide) (wfTok_tokEncode ('h' :: 'i' :: []))] at h
  rw [substMarkers_nil, List.append_nil] at h
  have hdf : decFun tokDecode ('X' :: []) (tokEncode ('h' :: 'i' :: [])) = 'h' :: 'i' :: [] := by
    unfold decFun
    rw [tokDecode_tokEncode]
  rw [hdf] at h
  have hne2 : ('h' :: 'i' :: [] : PyStr)
      ≠ (markerChars ('X' :: []) (tokEncode ('h' :: 'i' :: []))) ++ [] := by
    rw [List.append_nil]
    unfold markerChars
    intro hcontra
    injection hcontra with h1 h2
    exact absurd h1 (by decide)
  exact hne2 h

/-- C2 (code evaluation at the failing input): the source performs no
validation.  Two overlapping matches are silently spliced; the call returns a
fully rewritten, corrupted document instead of failing with
`OverlapError`/`RangeError` before modification. -/
theorem c2_no_validation_eval :
    apply_anonymization_replacements (fun _ => 0) ("0123456789".data)
        [⟨2, 6, 'A' :: [], 0.5, "2345".data, 1, 3⟩, ⟨4, 8, 'B' :: [], 0.5, "4567".data, 1, 5⟩]
      = "01[A_0]_0]89".data ∧
    ("01[A_0]_0]89".data : PyStr) ≠ "0123456789".data := by
  refine ⟨by decide, by decide⟩

/-- C3 (code evaluation at the failing input): the anonymization suffix is
`abs(hash(m.text)) % 10000` where `hash` is Python's per-process salted string
hash; two runs are modelled by two admissible hash functions and produce
different placeholders for the same input, so the output is not
run-independent. -/
theorem c3_hash_run_dependence :
    apply_anonymization_replacements (fun _ => 0) ("Contact: john@example.com".data)
        [⟨9, 25, "EMAIL_ADDRESS".data, 0.85, "john@example.com".data, 1, 10⟩]
      = "Contact: [EMAIL_ADDRESS_0]".data ∧
    apply_anonymization_replacements (fun _ => 1) ("Contact: john@example.com".data)
        [⟨9, 25, "EMAIL_ADDRESS".data, 0.85, "john@example.com".data, 1, 10⟩]
      = "Contact: [EMAIL_ADDRESS_1]".data ∧
    apply_anonymization_replacements (fun _ => 0) ("Contact: john@example.com".data)
        [⟨9, 25, "EMAIL_ADDRESS".data, 0.85, "john@example.com".data, 1, 10⟩]
      ≠ apply_anonymization_replacements (fun _ => 1) ("Contact: john@example.com".data)
        [⟨9, 25, "EMAIL_ADDRESS".data, 0.85, "john@example.com".data, 1, 10⟩] := by
  refine ⟨by decide, by decide, by decide⟩

/-- C4 (amended): per-marker decrypt failure recovery.  A marker whose token
fails to decrypt is left verbatim in the output (the whole matched text), every
other marker is still processed, and the pass returns normally.  The decrypt
subcommand does not count failures: what it reports (`markers_decrypted` in
the audit log) is the total number of well-formed markers found before
decryption — `2` here, although only one marker fails. -/
theorem c4_decrypt_recovery (dec : PyStr → Option PyStr) (p0 p1 p2 e1 t1 e2 t2 v : PyStr)
    (hp0 : markerFree p0 = true) (hp1 : markerFree p1 = true) (hp2 : markerFree p2 = true)
    (he1 : wfEty e1 = true) (ht1 : wfTok t1 = true)
    (he2 : wfEty e2 = true) (ht2 : wfTok t2 = true)
    (hbad : dec t1 = none) (hgood : dec t2 = some v) :
    decrypt_markers dec
        (p0 ++ (markerChars e1 t1 ++ (p1 ++ (markerChars e2 t2 ++ p2))))
      = p0 ++ (markerChars e1 t1 ++ (p1 ++ (v ++ p2))) ∧
    encrypted_marker_count
        (p0 ++ (markerChars e1 t1 ++ (p1 ++ (markerChars e2 t2 ++ p2)))) = 2 := by
  constructor
  · rw [decrypt_markers_eq]
    rw [substMarkers_skip_seg e1 t1 (p1 ++ (markerChars e2 t2 ++ p2)) hp0]
    rw [substMarkers_marker (p1 ++ (markerChars e2 t2 ++ p2)) he1 ht1]
    have hd1 : decFun dec e1 t1 = markerChars e1 t1 := by
      unfold decFun
      rw [hbad]
    rw [hd1]
    rw [substMarkers_skip_seg e2 t2 p2 hp1]
    rw [substMarkers_marker p2 he2 ht2]
    have hd2 : decFun dec e2 t2 = v := by
      unfold decFun
      rw [hgood]
    rw [hd2, substMarkers_free hp2]
  · unfold encrypted_marker_count scanMarkers
    rw [scanAux_skip_seg e1 t1 (p1 ++ (markerChars e2 t2 ++ p2)) 0 hp0]
    rw [scanMarkersAux_marker (p1 ++ (markerChars e2 t2 ++ p2)) (0 + p0.length) he1 ht1]
    rw [scanAux_skip_seg e2 t2 p2 _ hp1]
    rw [scanMarkersAux_marker p2 _ he2 ht2]
    rw [scanMarkersAux_free hp2]
    rfl

theorem c4_decrypt_recovery_witness :
    decrypt_markers (fun tok => if tok = ('g' :: 'd' :: []) then some ('p' :: []) else none)
        (('x' :: []) ++ (markerChars ('A' :: 'A' :: []) ('b' :: 'a' :: 'd' :: [])
          ++ ((' ' :: []) ++ (markerChars ('B' :: 'B' :: []) ('g' :: 'd' :: []) ++ ('y' :: [])))))
      = ('x' :: []) ++ (markerChars ('A' :: 'A' :: []) ('b' :: 'a' :: 'd' :: [])
          ++ ((' ' :: []) ++ (('p' :: []) ++ ('y' :: [])))) ∧
    encrypted_marker_count
        (('x' :: []) ++ (markerChars ('A' :: 'A' :: []) ('b' :: 'a' :: 'd' :: [])
          ++ ((' ' :: []) ++ (markerChars ('B' :: 'B' :: []) ('g' :: 'd' :: []) ++ ('y' :: []))))) = 2 :=
  c4_decrypt_recovery (fun tok => if tok = ('g' :: 'd' :: []) then some ('p' :: []) else none)
    ('x' :: []) (' ' :: []) ('y' :: []) ('A' :: 'A' :: []) ('b' :: 'a' :: 'd' :: [])
    ('B' :: 'B' :: []) ('g' :: 'd' :: []) ('p' :: [])
    (by decide) (by decide) (by decide) (by decide) (by decide) (by decide) (by decide)
    (by decide) (by decide)

/-- The per-marker failure count that the specification requires to be
reported to the caller.  Modelled from the spec: the source computes no such
value — its decrypt path counts only `len(ENCODED_PATTERN.findall(md_text))`
before decryption (`encrypted_marker_count`) and logs that. -/
def decrypt_failure_count (dec : PyStr → Option PyStr) (cs : PyStr) : Nat :=
  ((scanMarkers cs).filter (fun hit => (dec hit.tok).isNone)).length

/-- Document with one bad and one good marker, used to separate the reported
number from the per-marker failure count. -/
def c4doc : PyStr :=
  interleave [] [(('A' :: 'A' :: []), ('b' :: 'a' :: 'd' :: []), (' ' :: [])),
    (('B' :: 'B' :: []), ('g' :: 'd' :: []), [])]

/-- Decryption function for `c4doc`: succeeds exactly on the second token. -/
def c4dec : PyStr → Option PyStr :=
  fun tok => if tok = ('g' :: 'd' :: []) then some ('p' :: []) else none

/-- C4 (counterexample to the claim as stated): for a document with two
markers of which one fails to decrypt, the per-marker failure count is 1, but
the number the pipeline reports to the caller is the pre-decryption marker
total 2 — the code reports no failure count. -/
theorem c4_failure_count_counterexample :
    encrypted_marker_count c4doc = 2 ∧ decrypt_failure_count c4dec c4doc = 1 ∧
    encrypted_marker_count c4doc ≠ decrypt_failure_count c4dec c4doc := by
  have hscan : scanMarkers c4doc
      = expectedHits 0 [] [(('A' :: 'A' :: []), ('b' :: 'a' :: 'd' :: []), (' ' :: [])),
          (('B' :: 'B' :: []), ('g' :: 'd' :: []), [])] :=
    scanAux_interleave _ [] 0 (by decide) (by decide)
  unfold encrypted_marker_count decrypt_failure_count
  rw [hscan]
  refine ⟨by decide, by decide, by decide⟩

/-- C5: length invariant of the replacement engine.  For every text and every
pairwise non-overlapping valid match set, both rewrite modes satisfy
`len(output) + sum(len(match.text)) = len(input) + sum(len(substitution))`,
the additive form of
`len(output) = len(input) - sum(len(match.text)) + sum(len(substitution))`. -/
theorem c5_length_invariant (enc : PyStr → PyStr) (h : PyStr → Nat) (t : PyStr)
    (ms : List PiiMatch) (hdisj : ms.Pairwise noOverlap) (hv : ∀ m ∈ ms, validMatch t m) :
    (apply_encryption_replacements enc t ms).length + (ms.map (fun m => m.text.length)).sum
        = t.length + (ms.map (fun m => (encSub enc m).length)).sum ∧
    (apply_anonymization_replacements h t ms).length + (ms.map (fun m => m.text.length)).sum
        = t.length + (ms.map (fun m => (anonSub h m).length)).sum := by
  exact ⟨applyReplacements_length (encSub enc) t ms hdisj hv,
    applyReplacements_length (anonSub h) t ms hdisj hv⟩

theorem c5_length_invariant_witness :
    (apply_anonymization_replacements (fun _ => 7) ("0123456789".data)
        [⟨2, 4, 'A' :: [], 0.5, "23".data, 1, 3⟩, ⟨6, 9, 'B' :: [], 0.5, "678".data, 1, 7⟩]).length
      + (([⟨2, 4, 'A' :: [], 0.5, "23".data, 1, 3⟩,
          ⟨6, 9, 'B' :: [], 0.5, "678".data, 1, 7⟩] : List PiiMatch).map
            (fun m => m.text.length)).sum
      = ("0123456789".data).length
      + (([⟨2, 4, 'A' :: [], 0.5, "23".data, 1, 3⟩,
          ⟨6, 9, 'B' :: [], 0.5, "678".data, 1, 7⟩] : List PiiMatch).map
            (fun m => (anonSub (fun _ => 7) m).length)).sum :=
  (c5_length_invariant (fun s => s) (fun _ => 7) ("0123456789".data)
    [⟨2, 4, 'A' :: [], 0.5, "23".data, 1, 3⟩, ⟨6, 9, 'B' :: [], 0.5, "678".data, 1, 7⟩]
    (by decide) (by decide)).2

/-- C6: offset resolution.  For every text and offset in `[0, length(text)]`,
`offset_to_line_col` returns the 1-indexed pair whose line is one more than
the greatest index `i` with `lineStarts[i] <= offset` and whose column is
`offset - lineStarts[line - 1] + 1`; in particular offset `0` resolves to
`(1, 1)` and the offset immediately after a newline resolves to
`(line + 1, 1)`. -/
theorem c6_offset_resolution (t : PyStr) (offset : Nat) (hoff : offset ≤ t.length) :
    1 ≤ (offset_to_line_col offset (calculate_line_col_map t)).1 ∧
    (offset_to_line_col offset (calculate_line_col_map t)).1
      ≤ (calculate_line_col_map t).length ∧
    (calculate_line_col_map t).getD
        ((offset_to_line_col offset (calculate_line_col_map t)).1 - 1) 0 ≤ offset ∧
    (∀ j, j < (calculate_line_col_map t).length →
      (calculate_line_col_map t).getD j 0 ≤ offset →
      j ≤ (offset_to_line_col offset (calculate_line_col_map t)).1 - 1) ∧
    (offset_to_line_col offset (calculate_line_col_map t)).2
      = offset - (calculate_line_col_map t).getD
          ((offset_to_line_col offset (calculate_line_col_map t)).1 - 1) 0 + 1 ∧
    offset_to_line_col 0 (calculate_line_col_map t) = (1, 1) ∧
    (∀ q, ∀ hq : q < t.length, t.get ⟨q, hq⟩ = '\n' →
      offset_to_line_col (q + 1) (calculate_line_col_map t)
        = ((offset_to_line_col q (calculate_line_col_map t)).1 + 1, 1)) := by
  have heq := offset_to_line_col_eq t offset
  have h1 : (offset_to_line_col offset (calculate_line_col_map t)).1
      = ((calculate_line_col_map t).takeWhile (fun s => decide (s ≤ offset))).length := by
    rw [heq]
  have h2 : (offset_to_line_col offset (calculate_line_col_map t)).2
      = offset - (calculate_line_col_map t).getD
          (((calculate_line_col_map t).takeWhile (fun s => decide (s ≤ offset))).length - 1) 0
          + 1 := by
    rw [heq]
  refine ⟨?_, ?_, ?_, ?_, ?_, resolve_zero t, fun q hq hnl => resolve_after_newline t q hq hnl⟩
  · rw [h1]
    exact takeWhile_le_nonempty t offset
  · rw [h1]
    exact takeWhile_length_le _ _
  · rw [h1]
    exact sorted_getD_takeWhile (takeWhile_le_nonempty t offset)
  · intro j hj hle
    rw [h1]
    exact sorted_greatest_index (calculate_pairwise t) j hj hle
  · rw [h1, h2]

theorem c6_offset_resolution_witness :
    offset_to_line_col 0 (calculate_line_col_map ("ab\ncd".data)) = (1, 1) :=
  (c6_offset_resolution ("ab\ncd".data) 4 (by decide)).2.2.2.2.2.1

/-- C7: marker codec round trip.  Embedding markers with entity types matching
`[A-Z_]+` and tokens matching `[A-Za-z0-9_\-]+=*` between arbitrary
marker-free plain text and scanning the result yields exactly the embedded
(entityType, token) pairs, each at the position where its marker was placed,
non-overlapping and in left-to-right order; the pattern never matches across
marker boundaries. -/
theorem c7_marker_codec (s0 : PyStr) (l : List (PyStr × PyStr × PyStr))
    (h0 : markerFree s0 = true)
    (hl : ∀ x ∈ l, wfEty x.1 = true ∧ wfTok x.2.1 = true ∧ markerFree x.2.2 = true) :
    scanMarkers (interleave s0 l) = expectedHits 0 s0 l ∧
    List.Chain' (fun a b => MarkerHit.stop a ≤ b.start) (expectedHits 0 s0 l) ∧
    (∀ hit ∈ expectedHits 0 s0 l, hit.start < hit.stop) := by
  refine ⟨scanAux_interleave l s0 0 h0 hl, expectedHits_ordered l 0 s0, ?_⟩
  intro hit hmem
  exact (expectedHits_bounds l 0 s0 hit hmem).2

theorem c7_marker_codec_witness :
    scanMarkers (interleave ("see ".data)
        [(('A' :: 'B' :: []), ('t' :: 'o' :: 'k' :: '=' :: []), (" x ".data))])
      = expectedHits 0 ("see ".data)
        [(('A' :: 'B' :: []), ('t' :: 'o' :: 'k' :: '=' :: []), (" x ".data))] :=
  (c7_marker_codec ("see ".data)
    [(('A' :: 'B' :: []), ('t' :: 'o' :: 'k' :: '=' :: []), (" x ".data))]
    (by decide) (by decide)).1

/-- C8: decrypt idempotence on marker-free text.  For every decryption
function (i.e. every key) and every text in which `ENCODED_PATTERN` matches at
no position, `decrypt_markers` returns the text unchanged. -/
theorem c8_decrypt_idempotent (dec : PyStr → Option PyStr) (t : PyStr)
    (hfree : markerFree t = true) : decrypt_markers dec t = t := by
  rw [decrypt_markers_eq]
  exact substMarkers_free hfree

theorem c8_decrypt_idempotent_witness :
    decrypt_markers (fun _ => none) ("hello {world} =x".data) = "hello {world} =x".data :=
  c8_decrypt_idempotent (fun _ => none) ("hello {world} =x".data) (by decide)

/-- C9: detector fail-closed.  When no spaCy model can be constructed and
warmed up (both named models and the default engine fail), `analyze_pii`
propagates the `RuntimeError` from `build_analyzer`: it returns an error and
never an (empty) match list, so detector unavailability is not treated as
"no PII found" and nothing downstream can rewrite. -/
theorem c9_detector_fail_closed (env : SpacyEnv) (text : PyStr)
    (entities : Option (List PyStr))
    (h1 : env.tryModel "en_core_web_lg".data = none)
    (h2 : env.tryModel "en_core_web_sm".data = none)
    (h3 : env.tryDefault = none) :
    analyze_pii env text entities = Except.error noSpacyModelMsg ∧
    ∀ l, analyze_pii env text entities ≠ Except.ok l := by
  have hmain : analyze_pii env text entities = Except.error noSpacyModelMsg := by
    unfold analyze_pii build_analyzer
    rw [h1, h2, h3]
  refine ⟨hmain, ?_⟩
  intro l hcontra
  rw [hmain] at hcontra
  exact absurd hcontra (by simp)

theorem c9_detector_fail_closed_witness :
    analyze_pii ⟨fun _ => none, none⟩ ('x' :: []) none = Except.error noSpacyModelMsg :=
  (c9_detector_fail_closed ⟨fun _ => none, none⟩ ('x' :: []) none rfl rfl rfl).1

/-- C10 (amended): order insensitivity of the replacement engine.  For every
text and every pairwise non-overlapping valid match set whose spans are all
non-empty (`start < end`), the outputs of `apply_anonymization_replacements`
and of `apply_encryption_replacements` are invariant under any permutation of
the input match list: the stable descending sort then produces the same list
for both orders. -/
theorem c10_order_insensitive (h : PyStr → Nat) (enc : PyStr → PyStr) (t : PyStr)
    (l1 l2 : List PiiMatch) (hp : List.Perm l1 l2)
    (hdisj : l1.Pairwise noOverlap) (hv : ∀ m ∈ l1, validMatch t m)
    (hne : ∀ m ∈ l1, m.start < m.endPos) :
    apply_anonymization_replacements h t l1 = apply_anonymization_replacements h t l2 ∧
    apply_encryption_replacements enc t l1 = apply_encryption_replacements enc t l2 := by
  have hsort := sortDesc_eq_of_perm hp hdisj hne
  constructor
  · unfold apply_anonymization_replacements applyReplacements
    rw [hsort]
  · unfold apply_encryption_replacements applyReplacements
    rw [hsort]

theorem c10_order_insensitive_witness :
    apply_anonymization_replacements (fun _ => 3) ("0123456789".data)
        [⟨2, 4, 'A' :: [], 0.5, "23".data, 1, 3⟩, ⟨6, 9, 'B' :: [], 0.5, "678".data, 1, 7⟩]
      = apply_anonymization_replacements (fun _ => 3) ("0123456789".data)
        [⟨6, 9, 'B' :: [], 0.5, "678".data, 1, 7⟩, ⟨2, 4, 'A' :: [], 0.5, "23".data, 1, 3⟩] :=
  (c10_order_insensitive (fun _ => 3) (fun s => s) ("0123456789".data)
    [⟨2, 4, 'A' :: [], 0.5, "23".data, 1, 3⟩, ⟨6, 9, 'B' :: [], 0.5, "678".data, 1, 7⟩]
    [⟨6, 9, 'B' :: [], 0.5, "678".data, 1, 7⟩, ⟨2, 4, 'A' :: [], 0.5, "23".data, 1, 3⟩]
    (List.Perm.swap _ _ _) (by decide) (by decide) (by decide)).1

/-- C10 (counterexample to the claim as stated): with an empty span sharing
its start offset with a non-empty span — a configuration that passes the
interval-disjointness and text-field validity checks — the two input orders
tie on the sort key, the stable sort preserves the input order, and the two
orders produce different outputs (one of them slices through the placeholder
inserted by the other). -/
theorem c10_order_counterexample :
    List.Perm
        [⟨5, 5, 'A' :: 'A' :: [], 0.5, [], 1, 6⟩,
          (⟨5, 8, 'B' :: 'B' :: [], 0.5, "567".data, 1, 6⟩ : PiiMatch)]
        [⟨5, 8, 'B' :: 'B' :: [], 0.5, "567".data, 1, 6⟩,
          ⟨5, 5, 'A' :: 'A' :: [], 0.5, [], 1, 6⟩] ∧
    ([⟨5, 5, 'A' :: 'A' :: [], 0.5, [], 1, 6⟩,
        (⟨5, 8, 'B' :: 'B' :: [], 0.5, "567".data, 1, 6⟩ : PiiMatch)].Pairwise noOverlap) ∧
    (∀ m ∈ [⟨5, 5, 'A' :: 'A' :: [], 0.5, [], 1, 6⟩,
        (⟨5, 8, 'B' :: 'B' :: [], 0.5, "567".data, 1, 6⟩ : PiiMatch)],
      validMatch ("0123456789".data) m) ∧
    apply_anonymization_replacements (fun _ => 0) ("0123456789".data)
        [⟨5, 5, 'A' :: 'A' :: [], 0.5, [], 1, 6⟩,
          ⟨5, 8, 'B' :: 'B' :: [], 0.5, "567".data, 1, 6⟩]
      ≠ apply_anonymization_replacements (fun _ => 0) ("0123456789".data)
        [⟨5, 8, 'B' :: 'B' :: [], 0.5, "567".data, 1, 6⟩,
          ⟨5, 5, 'A' :: 'A' :: [], 0.5, [], 1, 6⟩] := by
  refine ⟨List.Perm.swap _ _ _, by decide, by decide, by decide⟩
